import Mathlib

/-!
# Verification of the LTE link simulator (`godev.go`)

A shallow embedding of the signal-processing pipeline of `src/godev.go`:
`GenerateBits`, `ModulateBPSK`, `OFDMModulation`, `RayleighChannel`, `AWGN`,
`TransmitSignal`, `OFDMDemodulation`, `DemodulateBPSK`, `RunSimulation`.

Modelling conventions.

* `float64` is modelled by an exact linearly ordered field `K` (`ℚ` when a
  definition is evaluated, `ℝ` for expectations): in the modulator, the transforms
  and the channel the arithmetic is exact.  NaN and the infinities are not
  modelled.  `complex128` is a pair of such scalars with Go's componentwise
  formulas.
* The one `float64` sum that is converted to an integer, `real(s) + 0.5` in
  `DemodulateBPSK`, is rounded to the nearest `float64` (ties to even,
  `roundFloat64`), because the conversion turns a rounding error into a different
  bit.
* `int64` and `int` are `Int` (a 64-bit platform); the one arithmetic expression on
  `int64` (`2*bit-1`) wraps modulo `2^64`, and `float64(int64)` rounds to 53
  significant bits.  The conversion `int(x)` of a `float64` discards the fraction
  when the result fits in 64 bits; otherwise its value is left to the
  implementation, and is the parameter `Env.IntOutOfRange`.
* A Go function returns `Except Panic _`: `make` panics on a negative length and
  an indexed store panics out of range.  Allocation of a non-negative length is
  assumed to succeed.
* The process-wide generator of `math/rand` is an explicit state `σ` threaded
  through the functions that draw from it.
* Printing (`fmt.Println`) has no effect on the values computed and is omitted.
-/

namespace GoDev

/-! ## Runtime model -/

/-- Run-time panics of the Go runtime that the pipeline can raise. -/
inductive Panic where
  | makesliceLenOutOfRange
  | indexOutOfRange
deriving DecidableEq, Repr

/-- Go `make([]T, n)`: a slice of `n` zero values; panics when `n` is negative. -/
def make {α : Type} (zero : α) (n : Int) : Except Panic (List α) :=
  if n < 0 then .error .makesliceLenOutOfRange else .ok (List.replicate n.toNat zero)

/-- Go `xs[i] = v`: an indexed store with its bounds check. -/
def setIdx {α : Type} (xs : List α) (i : Nat) (v : α) : Except Panic (List α) :=
  if i < xs.length then .ok (xs.set i v) else .error .indexOutOfRange

/-- Go `xs[i]` as a value: an indexed load with its bounds check. -/
def getIdx {α : Type} (xs : List α) (i : Nat) : Except Panic α :=
  match xs[i]? with
  | some v => .ok v
  | none => .error .indexOutOfRange

/-- Go `for i, v := range src { out[i] = body i v }`, entered at index `i`; the body
may itself panic (an indexed load). -/
def forRange {α β : Type} (body : Nat → α → Except Panic β) :
    List α → Nat → List β → Except Panic (List β)
  | [], _, out => .ok out
  | v :: rest, i, out =>
    match body i v with
    | .error e => .error e
    | .ok w =>
      match setIdx out i w with
      | .error e => .error e
      | .ok out1 => forRange body rest (i + 1) out1

/-- Two's-complement wrap-around of an `int64` result. -/
def wrapInt64 (x : Int) : Int := (x + 2 ^ 63) % 2 ^ 64 - 2 ^ 63

/-- The integer value of `float64(x)` for an `int64` `x`: exact below `2^53` in
magnitude, otherwise rounded to 53 significant bits, ties to even. -/
def roundToFloat64 (x : Int) : Int :=
  let a := x.natAbs
  if a < 2 ^ 53 then x
  else
    let e := Nat.log2 a - 52
    let q := a / 2 ^ e
    let r := a % 2 ^ e
    let half := 2 ^ (e - 1)
    let q1 := if half < r ∨ (r = half ∧ q % 2 = 1) then q + 1 else q
    Int.sign x * ((q1 * 2 ^ e : Nat) : Int)

/-- Go `complex128`: a real and an imaginary scalar. -/
@[ext]
structure Complex128 (K : Type) where
  re : K
  im : K
deriving DecidableEq, Repr

namespace Complex128

variable {K : Type}

/-- Go `real(z)`. -/
def real (z : Complex128 K) : K := z.re

/-- Go `imag(z)`. -/
def imag (z : Complex128 K) : K := z.im

/-- Go `complex(r, i)`. -/
def complex (r i : K) : Complex128 K := ⟨r, i⟩

instance [Zero K] : Zero (Complex128 K) := ⟨⟨0, 0⟩⟩
instance [One K] [Zero K] : One (Complex128 K) := ⟨⟨1, 0⟩⟩
instance [Add K] : Add (Complex128 K) := ⟨fun z w => ⟨z.re + w.re, z.im + w.im⟩⟩
instance [Neg K] : Neg (Complex128 K) := ⟨fun z => ⟨-z.re, -z.im⟩⟩
instance [Sub K] : Sub (Complex128 K) := ⟨fun z w => ⟨z.re - w.re, z.im - w.im⟩⟩
instance [Mul K] [Add K] [Sub K] : Mul (Complex128 K) :=
  ⟨fun z w => ⟨z.re * w.re - z.im * w.im, z.re * w.im + z.im * w.re⟩⟩
instance [NatCast K] [Zero K] : NatCast (Complex128 K) := ⟨fun n => ⟨n, 0⟩⟩
instance [IntCast K] [Zero K] : IntCast (Complex128 K) := ⟨fun n => ⟨n, 0⟩⟩
instance [Mul K] [Add K] [Neg K] [Div K] : Inv (Complex128 K) :=
  ⟨fun z => ⟨z.re / (z.re * z.re + z.im * z.im), -z.im / (z.re * z.re + z.im * z.im)⟩⟩

/-- The complex pairs over an ordered field form a field, with Go's formulas for
the sum, the product and the reciprocal. -/
instance [LinearOrderedField K] : Field (Complex128 K) where
  add_assoc a b c := Complex128.ext (add_assoc _ _ _) (add_assoc _ _ _)
  zero_add a := Complex128.ext (zero_add _) (zero_add _)
  add_zero a := Complex128.ext (add_zero _) (add_zero _)
  add_comm a b := Complex128.ext (add_comm _ _) (add_comm _ _)
  neg_add_cancel a := Complex128.ext (neg_add_cancel _) (neg_add_cancel _)
  sub_eq_add_neg a b := Complex128.ext (sub_eq_add_neg _ _) (sub_eq_add_neg _ _)
  nsmul := nsmulRec
  zsmul := zsmulRec
  mul_assoc a b c := by
    apply Complex128.ext
    · show (a.re * b.re - a.im * b.im) * c.re - (a.re * b.im + a.im * b.re) * c.im
        = a.re * (b.re * c.re - b.im * c.im) - a.im * (b.re * c.im + b.im * c.re)
      ring
    · show (a.re * b.re - a.im * b.im) * c.im + (a.re * b.im + a.im * b.re) * c.re
        = a.re * (b.re * c.im + b.im * c.re) + a.im * (b.re * c.re - b.im * c.im)
      ring
  one_mul a := by
    apply Complex128.ext
    · show 1 * a.re - 0 * a.im = a.re
      ring
    · show 1 * a.im + 0 * a.re = a.im
      ring
  mul_one a := by
    apply Complex128.ext
    · show a.re * 1 - a.im * 0 = a.re
      ring
    · show a.re * 0 + a.im * 1 = a.im
      ring
  zero_mul a := by
    apply Complex128.ext
    · show 0 * a.re - 0 * a.im = 0
      ring
    · show 0 * a.im + 0 * a.re = 0
      ring
  mul_zero a := by
    apply Complex128.ext
    · show a.re * 0 - a.im * 0 = 0
      ring
    · show a.re * 0 + a.im * 0 = 0
      ring
  left_distrib a b c := by
    apply Complex128.ext
    · show a.re * (b.re + c.re) - a.im * (b.im + c.im)
        = (a.re * b.re - a.im * b.im) + (a.re * c.re - a.im * c.im)
      ring
    · show a.re * (b.im + c.im) + a.im * (b.re + c.re)
        = (a.re * b.im + a.im * b.re) + (a.re * c.im + a.im * c.re)
      ring
  right_distrib a b c := by
    apply Complex128.ext
    · show (a.re + b.re) * c.re - (a.im + b.im) * c.im
        = (a.re * c.re - a.im * c.im) + (b.re * c.re - b.im * c.im)
      ring
    · show (a.re + b.re) * c.im + (a.im + b.im) * c.re
        = (a.re * c.im + a.im * c.re) + (b.re * c.im + b.im * c.re)
      ring
  mul_comm a b := by
    apply Complex128.ext
    · show a.re * b.re - a.im * b.im = b.re * a.re - b.im * a.im
      ring
    · show a.re * b.im + a.im * b.re = b.re * a.im + b.im * a.re
      ring
  natCast_zero := Complex128.ext Nat.cast_zero rfl
  natCast_succ n := Complex128.ext (Nat.cast_succ n) (zero_add 0).symm
  intCast_ofNat n := Complex128.ext (Int.cast_natCast n) rfl
  intCast_negSucc n := Complex128.ext (Int.cast_negSucc n) neg_zero.symm
  exists_pair_ne := ⟨0, 1, fun h => zero_ne_one (congrArg Complex128.re h)⟩
  inv_zero := by
    apply Complex128.ext
    · show (0 : K) / (0 * 0 + 0 * 0) = 0
      simp
    · show -(0 : K) / (0 * 0 + 0 * 0) = 0
      simp
  mul_inv_cancel a ha := by
    have hne : a.re * a.re + a.im * a.im ≠ 0 := by
      intro h
      have h1 : a.re = 0 := by nlinarith [mul_self_nonneg a.re, mul_self_nonneg a.im]
      have h2 : a.im = 0 := by nlinarith [mul_self_nonneg a.re, mul_self_nonneg a.im]
      exact ha (Complex128.ext h1 h2)
    apply Complex128.ext
    · show a.re * (a.re / (a.re * a.re + a.im * a.im))
        - a.im * (-a.im / (a.re * a.re + a.im * a.im)) = 1
      field_simp
    · show a.re * (-a.im / (a.re * a.re + a.im * a.im))
        + a.im * (a.re / (a.re * a.re + a.im * a.im)) = 0
      field_simp
      ring
  nnqsmul := _
  qsmul := _
  nnratCast_def q := rfl
  ratCast_def q := rfl

end Complex128

open Complex128 (complex real imag)

/-! ## External functions -/

/-- The library functions the pipeline calls, as parameters: `rand.Intn` and
`rand.NormFloat64` of `math/rand` act on the generator state `σ`; `Pow` is
`math.Pow`; `twiddle N` is the root of unity `e^(2πi/N)` from which the transform
package builds its factors; `IntOutOfRange x` is the implementation-dependent
result of the conversion `int(x)` for a `float64` `x` whose integer part does not
fit in 64 bits. -/
structure Env (σ K : Type) where
  Intn : Int → σ → Int × σ
  NormFloat64 : σ → K × σ
  Pow : K → K → K
  twiddle : Nat → Complex128 K
  IntOutOfRange : K → Int

/-- The state of the generator after `k` calls of `rand.NormFloat64`. -/
def Env.normState {σ K : Type} (E : Env σ K) (s : σ) : Nat → σ
  | 0 => s
  | k + 1 => (E.NormFloat64 (E.normState s k)).2

/-- The value returned by the call of `rand.NormFloat64` that follows `k` earlier
calls from state `s`. -/
def Env.normDraw {σ K : Type} (E : Env σ K) (s : σ) (k : Nat) : K :=
  (E.NormFloat64 (E.normState s k)).1

namespace fft

variable {K : Type} [LinearOrderedField K]

/-- Modelled from the spec: `fft.FFT` of the external package go-dsp, whose source
is not part of the repository.  Per the spec (4.3) it is the standard forward
discrete Fourier transform, `X[k] = Σ_n x[n] · w^(-k·n)` with `w = e^(2πi/N)`, without
a scaling factor, for every length `N`. -/
def FFT (twiddle : Nat → Complex128 K) (x : List (Complex128 K)) : List (Complex128 K) :=
  (List.range x.length).map fun k =>
    ∑ n in Finset.range x.length, x.getD n 0 * ((twiddle x.length)⁻¹) ^ (k * n)

/-- Modelled from the spec: `fft.IFFT` of the external package go-dsp, whose source
is not part of the repository.  Per the spec (4.3) it is the standard inverse
discrete Fourier transform, `x[n] = (1/N) · Σ_k X[k] · w^(k·n)` with `w = e^(2πi/N)`:
the one direction of the pair that carries the factor `1/N`. -/
def IFFT (twiddle : Nat → Complex128 K) (x : List (Complex128 K)) : List (Complex128 K) :=
  (List.range x.length).map fun n =>
    (∑ k in Finset.range x.length, x.getD k 0 * (twiddle x.length) ^ (k * n))
      / ((x.length : Nat) : Complex128 K)

end fft

/-! ## The pipeline of `godev.go` -/

section Pipeline

variable {σ K : Type} [LinearOrderedField K]

/-- Source constant `noiseFloor = -90`. -/
def noiseFloor : Int := -90

/-- Source `type LTEChannel struct{}`. -/
structure LTEChannel where
deriving DecidableEq, Repr

/-- Source `NewLTEChannel`. -/
def NewLTEChannel : LTEChannel := {}

/-- The loop of `GenerateBits`, `for i := 0; i < numBits; i++ { bits[i] = int64(rand.Intn(2)) }`,
at index `i` with `k = numBits - i` iterations left. -/
def GenerateBits.loop (E : Env σ K) : Nat → Nat → List Int → σ → Except Panic (List Int × σ)
  | 0, _, bits, s => .ok (bits, s)
  | k + 1, i, bits, s =>
    match setIdx bits i (E.Intn 2 s).1 with
    | .error e => .error e
    | .ok bits1 => GenerateBits.loop E k (i + 1) bits1 (E.Intn 2 s).2

/-- Source `GenerateBits`. -/
def GenerateBits (E : Env σ K) (numBits : Int) (s : σ) : Except Panic (List Int × σ) :=
  match make (0 : Int) numBits with
  | .error e => .error e
  | .ok bits => GenerateBits.loop E numBits.toNat 0 bits s

/-- Source `ModulateBPSK`: `BpskSymbols[i] = complex(float64(2*bit-1), 0)`. -/
def ModulateBPSK (bits : List Int) : Except Panic (List (Complex128 K)) :=
  match make (0 : Complex128 K) bits.length with
  | .error e => .error e
  | .ok BpskSymbols =>
    forRange
      (fun _ bit => .ok (complex ((roundToFloat64 (wrapInt64 (2 * bit - 1)) : Int) : K) 0))
      bits 0 BpskSymbols

/-- Source `(*LTEChannel).OFDMModulation`: `fft.IFFT(symbols)`. -/
def LTEChannel.OFDMModulation (_c : LTEChannel) (E : Env σ K)
    (symbols : List (Complex128 K)) : List (Complex128 K) :=
  fft.IFFT E.twiddle symbols

/-- Source `RayleighChannel`: one gain `complex(rand.NormFloat64(), rand.NormFloat64())`,
then `fadedSignal[i] = channelGain * s`. -/
def RayleighChannel (E : Env σ K) (signal : List (Complex128 K)) (s : σ) :
    Except Panic (List (Complex128 K) × σ) :=
  let d1 := E.NormFloat64 s
  let d2 := E.NormFloat64 d1.2
  let channelGain := complex d1.1 d2.1
  match make (0 : Complex128 K) signal.length with
  | .error e => .error e
  | .ok fadedSignal =>
    match forRange (fun _ x => .ok (channelGain * x)) signal 0 fadedSignal with
    | .error e => .error e
    | .ok faded => .ok (faded, d2.2)

/-- The noise power of `AWGN`: `math.Pow(10, (noiseFloor-snr)/10)`. -/
def AWGN.noisePower (E : Env σ K) (snr : K) : K :=
  E.Pow 10 ((((noiseFloor : Int) : K) - snr) / 10)

/-- One noise component of `AWGN`: `rand.NormFloat64() * noisePower / 2`, for the
value `draw` of the call. -/
def AWGN.noiseSample (draw noisePower : K) : K := draw * noisePower / 2

/-- The first loop of `AWGN`, `for i := range noiseReal`, at index `i` with `k`
iterations left: two draws per index, the real component first. -/
def AWGN.noiseLoop (E : Env σ K) (noisePower : K) :
    Nat → Nat → List K → List K → σ → Except Panic (List K × List K × σ)
  | 0, _, noiseReal, noiseImag, s => .ok (noiseReal, noiseImag, s)
  | k + 1, i, noiseReal, noiseImag, s =>
    let d1 := E.NormFloat64 s
    match setIdx noiseReal i (AWGN.noiseSample d1.1 noisePower) with
    | .error e => .error e
    | .ok noiseReal1 =>
      let d2 := E.NormFloat64 d1.2
      match setIdx noiseImag i (AWGN.noiseSample d2.1 noisePower) with
      | .error e => .error e
      | .ok noiseImag1 => AWGN.noiseLoop E noisePower k (i + 1) noiseReal1 noiseImag1 d2.2

/-- Source `(*LTEChannel).AWGN`. -/
def LTEChannel.AWGN (_c : LTEChannel) (E : Env σ K) (signal : List (Complex128 K)) (snr : K)
    (s : σ) : Except Panic (List (Complex128 K) × σ) :=
  let noisePower := AWGN.noisePower E snr
  match make (0 : K) signal.length with
  | .error e => .error e
  | .ok noiseReal0 =>
    match make (0 : K) signal.length with
    | .error e => .error e
    | .ok noiseImag0 =>
      match AWGN.noiseLoop E noisePower noiseReal0.length 0 noiseReal0 noiseImag0 s with
      | .error e => .error e
      | .ok (noiseReal, noiseImag, s1) =>
        match make (0 : Complex128 K) signal.length with
        | .error e => .error e
        | .ok noisySignal0 =>
          match forRange
              (fun i x =>
                match getIdx noiseReal i with
                | .error e => .error e
                | .ok nr =>
                  match getIdx noiseImag i with
                  | .error e => .error e
                  | .ok ni => .ok (x + complex nr ni))
              signal 0 noisySignal0 with
          | .error e => .error e
          | .ok noisySignal => .ok (noisySignal, s1)

/-- Source `TransmitSignal`. -/
def TransmitSignal (E : Env σ K) (signal : List Int) (snr : K) (lteChannel : LTEChannel)
    (s : σ) : Except Panic (List (Complex128 K) × σ) :=
  match ModulateBPSK signal with
  | .error e => .error e
  | .ok BpskSymbols =>
    let ofdmSymbols := lteChannel.OFDMModulation E BpskSymbols
    match RayleighChannel E ofdmSymbols s with
    | .error e => .error e
    | .ok (fadedSignal, s1) => lteChannel.AWGN E fadedSignal snr s1

/-- Source `OFDMDemodulation`: `fft.FFT(receivedSignal)`. -/
def OFDMDemodulation (E : Env σ K) (receivedSignal : List (Complex128 K)) :
    List (Complex128 K) :=
  fft.FFT E.twiddle receivedSignal

/-- The integer part of `x`: the fraction is discarded (truncation towards
zero). -/
def truncToInt [FloorRing K] (x : K) : Int := if 0 ≤ x then ⌊x⌋ else ⌈x⌉

/-- Go conversion `int(x)` of a `float64` on a 64-bit platform: the integer part of
`x` when it fits in 64 bits, and the implementation-dependent value `outOfRange x`
otherwise. -/
def intOfFloat64 [FloorRing K] (outOfRange : K → Int) (x : K) : Int :=
  if -(2 ^ 63) ≤ truncToInt x ∧ truncToInt x < 2 ^ 63 then truncToInt x else outOfRange x

/-- The integer nearest to `x`, the even one of the two when `x` lies half-way. -/
def roundHalfEven [FloorRing K] (x : K) : Int :=
  if x - ⌊x⌋ < 1 / 2 then ⌊x⌋
  else if 1 / 2 < x - ⌊x⌋ then ⌊x⌋ + 1
  else if ⌊x⌋ % 2 = 0 then ⌊x⌋ else ⌊x⌋ + 1

/-- The exponent of the unit in the last place of the `float64` format at the
magnitude `x > 0`: 52 binary places below the leading bit `2^⌊log₂ x⌋`, and `-1074`
for the subnormal magnitudes below `2^-1022`.  At `x = 0` the value is immaterial:
zero rounds to zero. -/
def ulpExponent [FloorRing K] (x : K) : Int := max (Int.log 2 x) (-1022) - 52

/-- The `float64` nearest to the magnitude `x ≥ 0` (ties to even): `x` is rounded to
a whole number of units in the last place.  Overflow to infinity, from `2^1024 -
2^970` on, is not modelled. -/
def roundFloat64Abs [FloorRing K] (x : K) : K :=
  (roundHalfEven (x / 2 ^ ulpExponent x) : K) * 2 ^ ulpExponent x

/-- The result of a `float64` operation whose exact result is `x`: the nearest
`float64`, ties to even, symmetric in the sign. -/
def roundFloat64 [FloorRing K] (x : K) : K :=
  if 0 ≤ x then roundFloat64Abs x else -roundFloat64Abs (-x)

/-- Source `DemodulateBPSK`: `decodedBits[i] = int(real(s) + 0.5)`, the sum being a
`float64` addition. -/
def DemodulateBPSK [FloorRing K] (E : Env σ K) (receivedSignal : List (Complex128 K)) :
    Except Panic (List Int) :=
  match make (0 : Int) receivedSignal.length with
  | .error e => .error e
  | .ok decodedBits =>
    forRange (fun _ s => .ok (intOfFloat64 E.IntOutOfRange (roundFloat64 (real s + 1 / 2))))
      receivedSignal 0 decodedBits

/-- Source `RunSimulation`: the generated bits and the received signal. -/
def RunSimulation (E : Env σ K) (numBits : Int) (snr : K) (s : σ) :
    Except Panic ((List Int × List (Complex128 K)) × σ) :=
  let lteChannel := NewLTEChannel
  match GenerateBits E numBits s with
  | .error e => .error e
  | .ok (bits, s1) =>
    match TransmitSignal E bits snr lteChannel s1 with
    | .error e => .error e
    | .ok (receivedBits, s2) => .ok ((bits, receivedBits), s2)

end Pipeline

/-! ## A concrete environment for evaluation -/

/-- A counter-driven generator over any scalar field: the `n`-th call of `Intn m`
returns `n mod m`, the `n`-th call of `NormFloat64` returns `n - 1`; `math.Pow` is
given, the twiddle factors are the rational roots of unity, and an out-of-range
conversion to `int` gives the least `int64`, as on amd64. -/
def counterEnv {K : Type} [LinearOrderedField K] (pow : K → K → K) : Env Nat K where
  Intn := fun m n => ((n : Int) % m, n + 1)
  NormFloat64 := fun n => ((n : K) - 1, n + 1)
  Pow := pow
  twiddle := fun N => if N = 2 then ⟨-1, 0⟩ else ⟨1, 0⟩
  IntOutOfRange := fun _ => -(2 ^ 63)

/-- The counter-driven generator over `ℚ`, with a `Pow` that is exact on the
exponent `0`. -/
def testEnv : Env Nat ℚ := counterEnv (fun b e => if e = 0 then 1 else b)



/-! ## Lemmas on the runtime model -/

theorem make_natCast {α : Type} (zero : α) (n : Nat) :
    make zero (n : Int) = .ok (List.replicate n zero) := by
  simp [make]

theorem make_of_neg {α : Type} (zero : α) (n : Int) (h : n < 0) :
    make zero n = .error .makesliceLenOutOfRange := by
  simp [make, h]

theorem make_of_nonneg {α : Type} (zero : α) (n : Int) (h : 0 ≤ n) :
    make zero n = .ok (List.replicate n.toNat zero) := by
  simp [make, not_lt.mpr h]

theorem setIdx_of_lt {α : Type} (xs : List α) (i : Nat) (v : α) (h : i < xs.length) :
    setIdx xs i v = .ok (xs.set i v) := by
  simp [setIdx, h]

theorem forRange_spec {α β : Type} (body : Nat → α → Except Panic β) (g : Nat → α → β) :
    ∀ (src : List α) (i : Nat) (out : List β),
      i + src.length ≤ out.length →
      (∀ k v, src[k]? = some v → body (i + k) v = .ok (g (i + k) v)) →
      ∃ res, forRange body src i out = .ok res ∧ res.length = out.length ∧
        (∀ j, j < i → res[j]? = out[j]?) ∧
        (∀ j, i + src.length ≤ j → res[j]? = out[j]?) ∧
        (∀ k v, src[k]? = some v → res[i + k]? = some (g (i + k) v)) := by
  intro src
  induction src with
  | nil =>
    intro i out _ _
    exact ⟨out, rfl, rfl, fun _ _ => rfl, fun _ _ => rfl, fun k v h => by simp at h⟩
  | cons v rest ih =>
    intro i out hlen hbody
    have hi : i < out.length := by
      simp only [List.length_cons] at hlen
      omega
    have h0 : body i v = .ok (g i v) := by
      have := hbody 0 v (by simp)
      simpa using this
    have hrest : ∀ k w, rest[k]? = some w → body (i + 1 + k) w = .ok (g (i + 1 + k) w) := by
      intro k w hk
      have := hbody (k + 1) w (by simpa using hk)
      have e : i + (k + 1) = i + 1 + k := by omega
      rw [e] at this
      exact this
    obtain ⟨res, hres, hl, hlo, hhi, hmid⟩ :=
      ih (i + 1) (out.set i (g i v)) (by simp only [List.length_cons] at hlen; simp; omega) hrest
    refine ⟨res, ?_, ?_, ?_, ?_, ?_⟩
    · simp only [forRange, h0, setIdx_of_lt out i _ hi]
      exact hres
    · simpa using hl
    · intro j hj
      rw [hlo j (by omega)]
      simp [List.getElem?_set]
      omega
    · intro j hj
      simp only [List.length_cons] at hj
      rw [hhi j (by omega)]
      simp [List.getElem?_set]
      omega
    · intro k w hk
      cases k with
      | zero =>
        simp at hk
        subst hk
        rw [Nat.add_zero, hlo i (by omega)]
        simp [List.getElem?_set, hi]
      | succ k =>
        have := hmid k w (by simpa using hk)
        have e : i + (k + 1) = i + 1 + k := by omega
        rw [e]
        exact this

theorem forRange_pure {α β : Type} (f : α → β) (zero : β) (src : List α) :
    forRange (fun _ v => .ok (f v)) src 0 (List.replicate src.length zero) =
      .ok (src.map f) := by
  obtain ⟨res, hres, hl, _, _, hmid⟩ :=
    forRange_spec (fun _ v => .ok (f v)) (fun _ v => f v) src 0
      (List.replicate src.length zero) (by simp) (fun _ _ _ => rfl)
  rw [hres]
  congr 1
  apply List.ext_getElem?
  intro j
  by_cases hj : j < src.length
  · have := hmid j src[j] (by simp [hj])
    rw [Nat.zero_add] at this
    rw [this]
    simp [hj]
  · have h1 : res[j]? = none := by
      apply List.getElem?_eq_none
      simp at hl
      omega
    rw [h1]
    symm
    apply List.getElem?_eq_none
    simp only [List.length_map]
    omega



section PipelineLemmas

variable {σ K : Type} [LinearOrderedField K]

/-! ## Closed forms of the element-wise stages -/

theorem ModulateBPSK_eq_map (bits : List Int) :
    ModulateBPSK (K := K) bits =
      .ok (bits.map fun bit =>
        complex ((roundToFloat64 (wrapInt64 (2 * bit - 1)) : Int) : K) 0) := by
  simp only [ModulateBPSK, make_natCast]
  exact forRange_pure _ _ _

theorem DemodulateBPSK_eq_map [FloorRing K] (E : Env σ K)
    (receivedSignal : List (Complex128 K)) :
    DemodulateBPSK E receivedSignal =
      .ok (receivedSignal.map fun s =>
        intOfFloat64 E.IntOutOfRange (roundFloat64 (real s + 1 / 2))) := by
  simp only [DemodulateBPSK, make_natCast]
  exact forRange_pure _ _ _

theorem RayleighChannel_eq_map (E : Env σ K) (signal : List (Complex128 K)) (s : σ) :
    RayleighChannel E signal s =
      .ok (signal.map fun x => complex (E.normDraw s 0) (E.normDraw s 1) * x,
        E.normState s 2) := by
  simp only [RayleighChannel, make_natCast, forRange_pure]
  rfl

theorem symbol_of_bit (b : Int) (hb : b = 0 ∨ b = 1) :
    ((roundToFloat64 (wrapInt64 (2 * b - 1)) : Int) : K) = 2 * (b : K) - 1 := by
  rcases hb with rfl | rfl
  · have : roundToFloat64 (wrapInt64 (2 * 0 - 1)) = -1 := by decide
    rw [this]
    norm_num
  · have : roundToFloat64 (wrapInt64 (2 * 1 - 1)) = 1 := by decide
    rw [this]
    norm_num

theorem truncToInt_eq_one [FloorRing K] (x : K) (h1 : 1 ≤ x) (h2 : x < 2) :
    truncToInt x = 1 := by
  have h0 : (0 : K) ≤ x := le_trans zero_le_one h1
  simp only [truncToInt, h0, if_true]
  rw [Int.floor_eq_iff]
  constructor
  · simpa using h1
  · norm_num
    linarith

theorem truncToInt_eq_zero [FloorRing K] (x : K) (h1 : -1 < x) (h2 : x < 1) :
    truncToInt x = 0 := by
  unfold truncToInt
  split_ifs with h0
  · rw [Int.floor_eq_iff]
    constructor
    · simpa using h0
    · simpa using h2
  · rw [Int.ceil_eq_iff]
    constructor
    · simpa using h1
    · simpa using le_of_lt (not_le.mp h0)

end PipelineLemmas


/-! ## Rounding to `float64` and conversion to `int` -/

theorem two_zpow_pos {K : Type} [LinearOrderedField K] (p : Int) : (0 : K) < 2 ^ p :=
  zpow_pos (by norm_num) p

theorem two_pow_mul_zpow {K : Type} [LinearOrderedField K] (L : Int) :
    (((2 ^ 52 : Int)) : K) * 2 ^ (L - 52) = 2 ^ L := by
  have h : (((2 ^ 52 : Int)) : K) = (2 : K) ^ (52 : Int) := by norm_num
  rw [h, ← zpow_add₀ (by norm_num)]
  congr 1
  omega

section Rounding

variable {K : Type} [LinearOrderedField K] [FloorRing K]

theorem roundHalfEven_le (x : K) : (roundHalfEven x : K) ≤ x + 1 / 2 := by
  unfold roundHalfEven
  have h1 := Int.floor_le x
  have h2 := Int.lt_floor_add_one x
  split_ifs with a b c
  · linarith
  · push_cast; linarith
  · linarith
  · push_cast; linarith

theorem roundHalfEven_ge (x : K) : x - 1 / 2 ≤ (roundHalfEven x : K) := by
  unfold roundHalfEven
  have h1 := Int.floor_le x
  have h2 := Int.lt_floor_add_one x
  split_ifs with a b c
  · linarith
  · push_cast; linarith
  · linarith
  · push_cast; linarith

theorem le_roundHalfEven (n : Int) (x : K) (h : (n : K) ≤ x) : n ≤ roundHalfEven x := by
  have hf : n ≤ ⌊x⌋ := Int.le_floor.mpr h
  unfold roundHalfEven
  split_ifs <;> omega

theorem roundHalfEven_odd_half (n : Int) (hn : n % 2 = 1) (x : K) (h1 : (n : K) + 1 / 2 ≤ x)
    (h2 : x < (n : K) + 1) : roundHalfEven x = n + 1 := by
  have hf : ⌊x⌋ = n := by
    rw [Int.floor_eq_iff]
    constructor <;> linarith
  unfold roundHalfEven
  rw [hf]
  have : ¬ (x - (n : K) < 1 / 2) := by linarith
  simp only [this, if_false]
  split_ifs with b c
  · rfl
  · omega
  · rfl

theorem roundHalfEven_intCast (n : Int) : roundHalfEven ((n : Int) : K) = n := by
  unfold roundHalfEven
  simp

theorem roundFloat64Abs_nonneg (y : K) (h0 : 0 ≤ y) : 0 ≤ roundFloat64Abs y := by
  unfold roundFloat64Abs
  have hp := two_zpow_pos (K := K) (ulpExponent y)
  have hm : ((0 : Int) : K) ≤ y / 2 ^ ulpExponent y := by
    simpa using div_nonneg h0 hp.le
  have := le_roundHalfEven 0 _ hm
  have h2 : (0 : K) ≤ (roundHalfEven (y / 2 ^ ulpExponent y) : K) := by exact_mod_cast this
  exact mul_nonneg h2 hp.le

theorem log_two_lt (y : K) (h0 : 0 < y) (n : Int) (h : y < 2 ^ n) : Int.log 2 y < n := by
  rw [← Int.lt_zpow_iff_log_lt (by norm_num) h0]
  simpa using h

theorem le_log_two (y : K) (h0 : 0 < y) (n : Int) (h : 2 ^ n ≤ y) : n ≤ Int.log 2 y := by
  rw [← Int.zpow_le_iff_le_log (by norm_num) h0]
  simpa using h

theorem log_two_eq (y : K) (n : Int) (h1 : 2 ^ n ≤ y) (h2 : y < 2 ^ (n + 1)) :
    Int.log 2 y = n := by
  have h0 : 0 < y := lt_of_lt_of_le (two_zpow_pos n) h1
  have a := log_two_lt y h0 _ h2
  have b := le_log_two y h0 _ h1
  omega

theorem roundFloat64Abs_le (y : K) :
    roundFloat64Abs y ≤ y + 2 ^ ulpExponent y / 2 := by
  unfold roundFloat64Abs
  have hp := two_zpow_pos (K := K) (ulpExponent y)
  have h := roundHalfEven_le (y / 2 ^ ulpExponent y)
  calc (roundHalfEven (y / 2 ^ ulpExponent y) : K) * 2 ^ ulpExponent y
      ≤ (y / 2 ^ ulpExponent y + 1 / 2) * 2 ^ ulpExponent y :=
        mul_le_mul_of_nonneg_right h hp.le
    _ = y + 2 ^ ulpExponent y / 2 := by
        field_simp
        ring

/-- Below `1 - 2^-54` the rounded value stays below 1. -/
theorem roundFloat64Abs_lt_one (y : K) (h0 : 0 ≤ y) (h1 : y < 1 - 1 / 2 ^ 54) :
    roundFloat64Abs y < 1 := by
  rcases eq_or_lt_of_le h0 with h | h
  · subst h
    unfold roundFloat64Abs
    have : roundHalfEven ((0 : K) / 2 ^ ulpExponent (0 : K)) = 0 := by
      rw [zero_div]
      simpa using roundHalfEven_intCast (K := K) 0
    rw [this]
    simp
  · have hy1 : y < 2 ^ (0 : Int) := by
      have : (0 : K) < 1 / 2 ^ 54 := by positivity
      simp only [zpow_zero]
      linarith
    have hL := log_two_lt y h 0 hy1
    have hp : ulpExponent y ≤ -53 := by
      unfold ulpExponent
      omega
    have hz : (2 : K) ^ ulpExponent y ≤ 2 ^ (-53 : Int) :=
      zpow_le_zpow_right₀ (by norm_num) hp
    have h53 : (2 : K) ^ (-53 : Int) = 1 / 2 ^ 53 := by
      rw [zpow_neg, one_div]
      norm_cast
    rw [h53] at hz
    have := roundFloat64Abs_le y
    have e : (1 : K) / 2 ^ 53 / 2 = 1 / 2 ^ 54 := by norm_num
    have e2 : (2 : K) ^ ulpExponent y / 2 ≤ 1 / 2 ^ 54 := by
      rw [← e]
      exact div_le_div_of_nonneg_right hz (by norm_num)
    generalize (2 : K) ^ ulpExponent y / 2 = t at this e2
    generalize (1 : K) / 2 ^ 54 = c at h1 e2
    linarith

theorem roundFloat64Abs_of_exponent (y : K) (p : Int) (hp : ulpExponent y = p) :
    roundFloat64Abs y = (roundHalfEven (y / 2 ^ p) : K) * 2 ^ p := by
  unfold roundFloat64Abs
  rw [hp]

/-- Between `1 - 2^-54` and `2 - 2^-53` the rounded value lies in `[1, 2)`. -/
theorem roundFloat64Abs_one_region (y : K) (h1 : 1 - 1 / 2 ^ 54 ≤ y) (h2 : y < 2 - 1 / 2 ^ 53) :
    1 ≤ roundFloat64Abs y ∧ roundFloat64Abs y < 2 := by
  rcases le_or_lt 1 y with h | h
  · have hL : Int.log 2 y = 0 := by
      apply log_two_eq
      · simpa using h
      · have : (0 : K) < 1 / 2 ^ 53 := by positivity
        norm_num
        linarith
    have hp : ulpExponent y = -52 := by
      unfold ulpExponent
      rw [hL]
      rfl
    rw [roundFloat64Abs_of_exponent y _ hp]
    have h52 : (2 : K) ^ (-52 : Int) = 1 / 2 ^ 52 := by
      rw [zpow_neg, one_div]
      norm_cast
    rw [h52]
    have hm1 : (((2 ^ 52 : Int)) : K) ≤ y / (1 / 2 ^ 52) := by
      rw [div_div_eq_mul_div, div_one]
      push_cast
      nlinarith
    have hm2 : y / (1 / 2 ^ 52) < 2 ^ 53 - 1 / 2 := by
      rw [div_div_eq_mul_div, div_one]
      have : y * 2 ^ 52 < (2 - 1 / 2 ^ 53) * 2 ^ 52 := by
        apply mul_lt_mul_of_pos_right h2 (by positivity)
      norm_num at this ⊢
      linarith
    have a := le_roundHalfEven _ _ hm1
    have b := roundHalfEven_le (y / (1 / 2 ^ 52))
    have b2 : ((roundHalfEven (y / (1 / 2 ^ 52)) : Int) : K) < ((2 ^ 53 : Int) : K) := by
      push_cast
      linarith
    have b3 : roundHalfEven (y / (1 / 2 ^ 52)) < 2 ^ 53 := by exact_mod_cast b2
    have b4 : roundHalfEven (y / (1 / 2 ^ 52)) ≤ 2 ^ 53 - 1 := by omega
    have a5 : (((2 ^ 52 : Int)) : K) ≤ (roundHalfEven (y / (1 / 2 ^ 52)) : K) := by
      exact_mod_cast a
    have b5 : ((roundHalfEven (y / (1 / 2 ^ 52)) : Int) : K) ≤ ((2 ^ 53 - 1 : Int) : K) := by
      exact_mod_cast b4
    push_cast at a5 b5
    constructor
    · rw [mul_one_div, le_div_iff₀ (by positivity)]
      linarith
    · rw [mul_one_div, div_lt_iff₀ (by positivity)]
      linarith
  · have hL : Int.log 2 y = -1 := by
      apply log_two_eq
      · have : (1 : K) / 2 ^ 54 ≤ 1 / 2 := by norm_num
        have e : (2 : K) ^ (-1 : Int) = 1 / 2 := by norm_num
        rw [e]
        linarith
      · simpa using h
    have hp : ulpExponent y = -53 := by
      unfold ulpExponent
      rw [hL]
      rfl
    rw [roundFloat64Abs_of_exponent y _ hp]
    have h53 : (2 : K) ^ (-53 : Int) = 1 / 2 ^ 53 := by
      rw [zpow_neg, one_div]
      norm_cast
    rw [h53]
    have hm1 : (((2 ^ 53 - 1 : Int)) : K) + 1 / 2 ≤ y / (1 / 2 ^ 53) := by
      rw [div_div_eq_mul_div, div_one]
      have : (1 - 1 / 2 ^ 54) * 2 ^ 53 ≤ y * 2 ^ 53 :=
        mul_le_mul_of_nonneg_right h1 (by positivity)
      push_cast
      norm_num at this ⊢
      linarith
    have hm2 : y / (1 / 2 ^ 53) < (((2 ^ 53 - 1 : Int)) : K) + 1 := by
      rw [div_div_eq_mul_div, div_one]
      have : y * 2 ^ 53 < 1 * 2 ^ 53 := mul_lt_mul_of_pos_right h (by positivity)
      push_cast
      linarith
    have hr := roundHalfEven_odd_half (2 ^ 53 - 1) (by norm_num) _ hm1 hm2
    rw [hr]
    push_cast
    norm_num

/-- From `2 - 2^-53` on the rounded value is at least 2. -/
theorem roundFloat64Abs_ge_two (y : K) (h1 : 2 - 1 / 2 ^ 53 ≤ y) : 2 ≤ roundFloat64Abs y := by
  rcases lt_or_le y 2 with h | h
  · have hL : Int.log 2 y = 0 := by
      apply log_two_eq
      · have : (1 : K) / 2 ^ 53 ≤ 1 := by norm_num
        simp only [zpow_zero]
        linarith
      · norm_num
        exact h
    have hp : ulpExponent y = -52 := by
      unfold ulpExponent
      rw [hL]
      rfl
    rw [roundFloat64Abs_of_exponent y _ hp]
    have h52 : (2 : K) ^ (-52 : Int) = 1 / 2 ^ 52 := by
      rw [zpow_neg, one_div]
      norm_cast
    rw [h52]
    have hm1 : (((2 ^ 53 - 1 : Int)) : K) + 1 / 2 ≤ y / (1 / 2 ^ 52) := by
      rw [div_div_eq_mul_div, div_one]
      have : (2 - 1 / 2 ^ 53) * 2 ^ 52 ≤ y * 2 ^ 52 :=
        mul_le_mul_of_nonneg_right h1 (by positivity)
      push_cast
      norm_num at this ⊢
      linarith
    have hm2 : y / (1 / 2 ^ 52) < (((2 ^ 53 - 1 : Int)) : K) + 1 := by
      rw [div_div_eq_mul_div, div_one]
      have : y * 2 ^ 52 < 2 * 2 ^ 52 := mul_lt_mul_of_pos_right h (by positivity)
      push_cast
      norm_num at this ⊢
      linarith
    have hr := roundHalfEven_odd_half (2 ^ 53 - 1) (by norm_num) _ hm1 hm2
    rw [hr]
    push_cast
    norm_num
  · have h0 : 0 < y := by linarith
    have hL : 1 ≤ Int.log 2 y := le_log_two y h0 1 (by simpa using h)
    have hp : ulpExponent y = Int.log 2 y - 52 := by
      unfold ulpExponent
      omega
    rw [roundFloat64Abs_of_exponent y _ hp]
    have hpos := two_zpow_pos (K := K) (Int.log 2 y - 52)
    have hlow : (2 : K) ^ Int.log 2 y ≤ y := by
      simpa using Int.zpow_log_le_self (b := 2) (by norm_num) h0
    have hm : (((2 ^ 52 : Int)) : K) ≤ y / 2 ^ (Int.log 2 y - 52) := by
      rw [le_div_iff₀ hpos]
      rw [two_pow_mul_zpow]
      exact hlow
    have a := le_roundHalfEven _ _ hm
    have a5 : (((2 ^ 52 : Int)) : K) ≤ (roundHalfEven (y / 2 ^ (Int.log 2 y - 52)) : K) := by
      exact_mod_cast a
    have e := two_pow_mul_zpow (K := K) (Int.log 2 y)
    have h2 : (2 : K) ^ (1 : Int) ≤ 2 ^ Int.log 2 y := zpow_le_zpow_right₀ (by norm_num) hL
    calc (2 : K) = 2 ^ (1 : Int) := by norm_num
      _ ≤ 2 ^ Int.log 2 y := h2
      _ = (((2 ^ 52 : Int)) : K) * 2 ^ (Int.log 2 y - 52) := e.symm
      _ ≤ _ := mul_le_mul_of_nonneg_right a5 hpos.le

/-- A value that is a whole multiple of its unit in the last place is a `float64`
value: rounding leaves it unchanged. -/
theorem roundFloat64Abs_exact (y : K) (p n : Int) (hp : ulpExponent y = p)
    (hn : y = (n : K) * 2 ^ p) : roundFloat64Abs y = y := by
  rw [roundFloat64Abs_of_exponent y p hp]
  have hpos := two_zpow_pos (K := K) p
  have : y / 2 ^ p = (n : K) := by
    rw [div_eq_iff hpos.ne']
    exact hn
  rw [this, roundHalfEven_intCast]
  exact hn.symm

theorem roundFloat64_zero_region (y : K) (h1 : -(1 - 1 / 2 ^ 54) < y) (h2 : y < 1 - 1 / 2 ^ 54) :
    -1 < roundFloat64 y ∧ roundFloat64 y < 1 := by
  unfold roundFloat64
  split_ifs with h0
  · have a := roundFloat64Abs_nonneg y h0
    have b := roundFloat64Abs_lt_one y h0 h2
    constructor <;> linarith
  · have h0' : 0 ≤ -y := by linarith
    have a := roundFloat64Abs_nonneg (-y) h0'
    have b := roundFloat64Abs_lt_one (-y) h0' (by linarith)
    constructor <;> linarith

theorem roundFloat64_one_region (y : K) (h1 : 1 - 1 / 2 ^ 54 ≤ y) (h2 : y < 2 - 1 / 2 ^ 53) :
    1 ≤ roundFloat64 y ∧ roundFloat64 y < 2 := by
  have h0 : 0 ≤ y := by
    have : (1 : K) / 2 ^ 54 ≤ 1 := by norm_num
    linarith
  unfold roundFloat64
  rw [if_pos h0]
  exact roundFloat64Abs_one_region y h1 h2

theorem roundFloat64_ge_two (y : K) (h1 : 2 - 1 / 2 ^ 53 ≤ y) : 2 ≤ roundFloat64 y := by
  have h0 : 0 ≤ y := by
    have : (1 : K) / 2 ^ 53 ≤ 1 := by norm_num
    linarith
  unfold roundFloat64
  rw [if_pos h0]
  exact roundFloat64Abs_ge_two y h1

theorem roundFloat64_le_neg_one (y : K) (h1 : y ≤ -(1 - 1 / 2 ^ 54)) : roundFloat64 y ≤ -1 := by
  have h0 : ¬ (0 ≤ y) := by
    have : (1 : K) / 2 ^ 54 < 1 := by norm_num
    intro h
    linarith
  unfold roundFloat64
  rw [if_neg h0]
  rcases lt_or_le (-y) (2 - 1 / 2 ^ 53) with h | h
  · have := (roundFloat64Abs_one_region (-y) (by linarith) h).1
    linarith
  · have := roundFloat64Abs_ge_two (-y) h
    linarith

theorem truncToInt_ge_two (x : K) (h : 2 ≤ x) : 2 ≤ truncToInt x := by
  have h0 : (0 : K) ≤ x := by linarith
  simp only [truncToInt, h0, if_true]
  exact Int.le_floor.mpr (by simpa using h)

theorem truncToInt_le_neg_one (x : K) (h : x ≤ -1) : truncToInt x ≤ -1 := by
  have h0 : ¬ ((0 : K) ≤ x) := by
    intro h'
    linarith
  simp only [truncToInt, h0, if_false]
  exact Int.ceil_le.mpr (by simpa using h)

theorem intOfFloat64_of_fits (f : K → Int) (x : K) (h1 : -(2 ^ 63) ≤ truncToInt x)
    (h2 : truncToInt x < 2 ^ 63) : intOfFloat64 f x = truncToInt x := by
  unfold intOfFloat64
  rw [if_pos ⟨h1, h2⟩]

/-- The conversion of the rounded sum `r + 0.5` is 1 from `r = 0.5 - 2^-54` up to,
but not including, `r = 1.5 - 2^-53`. -/
theorem decode_one (f : K → Int) (r : K) (h1 : 1 / 2 - 1 / 2 ^ 54 ≤ r)
    (h2 : r < 3 / 2 - 1 / 2 ^ 53) : intOfFloat64 f (roundFloat64 (r + 1 / 2)) = 1 := by
  have h := roundFloat64_one_region (r + 1 / 2) (by linarith) (by linarith)
  have ht := truncToInt_eq_one _ h.1 h.2
  rw [intOfFloat64_of_fits f _ (by rw [ht]; norm_num) (by rw [ht]; norm_num), ht]

/-- The conversion of the rounded sum `r + 0.5` is 0 strictly between
`r = -1.5 + 2^-54` and `r = 0.5 - 2^-54`. -/
theorem decode_zero (f : K → Int) (r : K) (h1 : -(3 / 2) + 1 / 2 ^ 54 < r)
    (h2 : r < 1 / 2 - 1 / 2 ^ 54) : intOfFloat64 f (roundFloat64 (r + 1 / 2)) = 0 := by
  have h := roundFloat64_zero_region (r + 1 / 2) (by linarith) (by linarith)
  have ht := truncToInt_eq_zero _ h.1 h.2
  rw [intOfFloat64_of_fits f _ (by rw [ht]; norm_num) (by rw [ht]; norm_num), ht]

end Rounding

theorem roundFloat64_seven_halves : roundFloat64 (7 / 2 : ℚ) = 7 / 2 := by
  unfold roundFloat64
  rw [if_pos (by norm_num)]
  have hL : Int.log 2 (7 / 2 : ℚ) = 1 := by
    apply log_two_eq <;> norm_num
  have hp : ulpExponent (7 / 2 : ℚ) = -51 := by
    unfold ulpExponent
    rw [hL]
    rfl
  apply roundFloat64Abs_exact _ (-51) (7 * 2 ^ 50) hp
  rw [zpow_neg]
  norm_num

/-! ## The loops that draw from the generator -/

theorem Env.normState_shift {σ K : Type} (E : Env σ K) (s : σ) (k : Nat) :
    E.normState (E.NormFloat64 s).2 k = E.normState s (k + 1) := by
  induction k with
  | zero => rfl
  | succ k ih =>
    show (E.NormFloat64 (E.normState (E.NormFloat64 s).2 k)).2 = _
    rw [ih]
    rfl

theorem Env.normDraw_shift {σ K : Type} (E : Env σ K) (s : σ) (k : Nat) :
    E.normDraw (E.NormFloat64 s).2 k = E.normDraw s (k + 1) := by
  unfold Env.normDraw
  rw [Env.normState_shift]

theorem GenerateBits_loop_spec {σ K : Type} (E : Env σ K) (P : Int → Prop)
    (hP : ∀ s, P (E.Intn 2 s).1) :
    ∀ (k i : Nat) (bits : List Int) (s : σ), i + k ≤ bits.length → (∀ b ∈ bits, P b) →
      ∃ out s1, GenerateBits.loop E k i bits s = .ok (out, s1) ∧
        out.length = bits.length ∧ ∀ b ∈ out, P b := by
  intro k
  induction k with
  | zero =>
    intro i bits s _ hb
    exact ⟨bits, s, rfl, rfl, hb⟩
  | succ k ih =>
    intro i bits s hlen hb
    have hi : i < bits.length := by omega
    obtain ⟨out, s1, hrun, hl, hmem⟩ :=
      ih (i + 1) (bits.set i (E.Intn 2 s).1) (E.Intn 2 s).2
        (by simp only [List.length_set]; omega)
        (by
          intro b hbm
          rcases List.mem_or_eq_of_mem_set hbm with h | h
          · exact hb b h
          · rw [h]
            exact hP s)
    refine ⟨out, s1, ?_, ?_, hmem⟩
    · simp only [GenerateBits.loop, setIdx_of_lt bits i _ hi]
      exact hrun
    · simpa using hl

theorem GenerateBits_spec {σ K : Type} (E : Env σ K) (P : Int → Prop) (hP0 : P 0)
    (hP : ∀ s, P (E.Intn 2 s).1) (numBits : Int) (hn : 0 ≤ numBits) (s : σ) :
    ∃ bits s1, GenerateBits E numBits s = .ok (bits, s1) ∧
      (bits.length : Int) = numBits ∧ ∀ b ∈ bits, P b := by
  obtain ⟨out, s1, hrun, hl, hmem⟩ :=
    GenerateBits_loop_spec E P hP numBits.toNat 0 (List.replicate numBits.toNat 0) s
      (by simp)
      (by
        intro b hb
        rw [List.eq_of_mem_replicate hb]
        exact hP0)
  refine ⟨out, s1, ?_, ?_, hmem⟩
  · simp only [GenerateBits, make_of_nonneg _ _ hn]
    exact hrun
  · rw [hl, List.length_replicate]
    exact Int.toNat_of_nonneg hn

section GeneratorLemmas

variable {σ K : Type} [LinearOrderedField K]

theorem noiseLoop_spec (E : Env σ K) (P : K) :
    ∀ (k i : Nat) (nr ni : List K) (s : σ), i + k ≤ nr.length → i + k ≤ ni.length →
      ∃ nr1 ni1, AWGN.noiseLoop E P k i nr ni s = .ok (nr1, ni1, E.normState s (2 * k)) ∧
        nr1.length = nr.length ∧ ni1.length = ni.length ∧
        (∀ j, j < i → nr1[j]? = nr[j]? ∧ ni1[j]? = ni[j]?) ∧
        (∀ j, j < k →
          nr1[i + j]? = some (AWGN.noiseSample (E.normDraw s (2 * j)) P) ∧
          ni1[i + j]? = some (AWGN.noiseSample (E.normDraw s (2 * j + 1)) P)) := by
  intro k
  induction k with
  | zero =>
    intro i nr ni s _ _
    exact ⟨nr, ni, rfl, rfl, rfl, fun _ _ => ⟨rfl, rfl⟩, fun j hj => absurd hj (Nat.not_lt_zero j)⟩
  | succ k ih =>
    intro i nr ni s h1 h2
    have hi1 : i < nr.length := by omega
    have hi2 : i < ni.length := by omega
    obtain ⟨nr1, ni1, hrun, hl1, hl2, hlo, hmid⟩ :=
      ih (i + 1) (nr.set i (AWGN.noiseSample (E.NormFloat64 s).1 P))
        (ni.set i (AWGN.noiseSample (E.NormFloat64 (E.NormFloat64 s).2).1 P))
        (E.NormFloat64 (E.NormFloat64 s).2).2
        (by simp only [List.length_set]; omega) (by simp only [List.length_set]; omega)
    refine ⟨nr1, ni1, ?_, ?_, ?_, ?_, ?_⟩
    · simp only [AWGN.noiseLoop, setIdx_of_lt nr i _ hi1, setIdx_of_lt ni i _ hi2]
      rw [hrun, Env.normState_shift, Env.normState_shift]
      have e : 2 * k + 1 + 1 = 2 * (k + 1) := by omega
      rw [e]
    · simpa using hl1
    · simpa using hl2
    · intro j hj
      obtain ⟨a, b⟩ := hlo j (by omega)
      rw [a, b]
      have hne : i ≠ j := by omega
      simp [List.getElem?_set, hne]
    · intro j hj
      cases j with
      | zero =>
        obtain ⟨a, b⟩ := hlo i (by omega)
        rw [Nat.add_zero, a, b]
        simp [List.getElem?_set, hi1, hi2, Env.normDraw, Env.normState]
      | succ j =>
        obtain ⟨a, b⟩ := hmid j (by omega)
        have e : i + (j + 1) = i + 1 + j := by omega
        rw [e, a, b, Env.normDraw_shift, Env.normDraw_shift, Env.normDraw_shift,
          Env.normDraw_shift]
        have e1 : 2 * j + 1 + 1 = 2 * (j + 1) := by omega
        rw [e1]
        exact ⟨rfl, rfl⟩

theorem getIdx_of_getElem? {α : Type} (xs : List α) (i : Nat) (v : α) (h : xs[i]? = some v) :
    getIdx xs i = .ok v := by
  simp [getIdx, h]

theorem AWGN_spec (c : LTEChannel) (E : Env σ K) (signal : List (Complex128 K)) (snr : K)
    (s : σ) :
    ∃ noisy, c.AWGN E signal snr s = .ok (noisy, E.normState s (2 * signal.length)) ∧
      noisy.length = signal.length ∧
      ∀ k x, signal[k]? = some x →
        noisy[k]? = some (x + complex
          (AWGN.noiseSample (E.normDraw s (2 * k)) (AWGN.noisePower E snr))
          (AWGN.noiseSample (E.normDraw s (2 * k + 1)) (AWGN.noisePower E snr))) := by
  obtain ⟨nr1, ni1, hrun, hl1, hl2, _, hmid⟩ :=
    noiseLoop_spec E (AWGN.noisePower E snr) signal.length 0
      (List.replicate signal.length 0) (List.replicate signal.length 0) s
      (by simp) (by simp)
  obtain ⟨res, hres, hl, _, _, hval⟩ :=
    forRange_spec
      (fun i x =>
        match getIdx nr1 i with
        | .error e => .error e
        | .ok nr =>
          match getIdx ni1 i with
          | .error e => .error e
          | .ok ni => .ok (x + complex nr ni))
      (fun i x => x + complex
          (AWGN.noiseSample (E.normDraw s (2 * i)) (AWGN.noisePower E snr))
          (AWGN.noiseSample (E.normDraw s (2 * i + 1)) (AWGN.noisePower E snr)))
      signal 0 (List.replicate signal.length (0 : Complex128 K)) (by simp)
      (by
        intro k x hk
        have hk1 : k < signal.length := by
          by_contra hcon
          rw [List.getElem?_eq_none (by omega)] at hk
          exact Option.noConfusion hk
        obtain ⟨a, b⟩ := hmid k hk1
        rw [Nat.zero_add] at a b ⊢
        simp only [getIdx_of_getElem? _ _ _ a, getIdx_of_getElem? _ _ _ b])
  refine ⟨res, ?_, ?_, ?_⟩
  · simp only [LTEChannel.AWGN, make_natCast, List.length_replicate, hrun, hres]
  · simpa using hl
  · intro k x hk
    have := hval k x hk
    rw [Nat.zero_add] at this
    exact this

end GeneratorLemmas

/-! ## Claims on the element-wise stages and on the lengths -/

section Claims

variable {σ K : Type} [LinearOrderedField K]

/-- C1. For every bit sequence (every element 0 or 1), `ModulateBPSK` returns a
sequence of the same length whose `i`-th element is the complex number with real
part exactly `2*b[i] - 1` and imaginary part 0. -/
theorem ModulateBPSK_maps_bits_to_symbols (bits : List Int)
    (hbits : ∀ b ∈ bits, b = 0 ∨ b = 1) :
    ∃ out : List (Complex128 K), ModulateBPSK bits = .ok out ∧ out.length = bits.length ∧
      ∀ (i : Nat) (b : Int), bits[i]? = some b → out[i]? = some (complex (2 * (b : K) - 1) 0) := by
  refine ⟨_, ModulateBPSK_eq_map bits, by simp, ?_⟩
  intro i b hb
  have hmem : b ∈ bits := List.getElem?_mem hb
  simp only [List.getElem?_map, hb, Option.map_some']
  rw [symbol_of_bit b (hbits b hmem)]

/-- Witness of C1 on the bits 0, 1, 1. -/
theorem ModulateBPSK_maps_bits_to_symbols_witness :
    (∀ b ∈ ([0, 1, 1] : List Int), b = 0 ∨ b = 1) ∧
    ∃ out : List (Complex128 ℚ), ModulateBPSK [0, 1, 1] = .ok out ∧
      out.length = ([0, 1, 1] : List Int).length ∧
      ∀ (i : Nat) (b : Int), ([0, 1, 1] : List Int)[i]? = some b →
        out[i]? = some (complex (2 * (b : ℚ) - 1) 0) :=
  ⟨by decide, ModulateBPSK_maps_bits_to_symbols [0, 1, 1] (by decide)⟩

/-- C3, counterexample. The sample `0+0i` has `real(s) + 0.5 ≥ 0`, so the claim
asks for the bit 1, but `DemodulateBPSK` returns 0; and the sample `3+0i` is
decoded to 3, which is not a bit. -/
theorem DemodulateBPSK_threshold_counterexample :
    ¬ (∀ s : List (Complex128 ℚ), ∃ out : List Int, DemodulateBPSK testEnv s = .ok out ∧
        out.length = s.length ∧
        ∀ (i : Nat) (x : Complex128 _), s[i]? = some x → out[i]? = some (if 0 ≤ real x + 1 / 2 then 1 else 0)) ∧
    DemodulateBPSK testEnv [(⟨0, 0⟩ : Complex128 ℚ)] = .ok [0] ∧
    DemodulateBPSK testEnv [(⟨3, 0⟩ : Complex128 ℚ)] = .ok [3] := by
  have h0 : DemodulateBPSK testEnv [(⟨0, 0⟩ : Complex128 ℚ)] = .ok [0] := by
    rw [DemodulateBPSK_eq_map]
    have : intOfFloat64 testEnv.IntOutOfRange
        (roundFloat64 (real (⟨0, 0⟩ : Complex128 ℚ) + 1 / 2)) = 0 := by
      apply decode_zero <;> norm_num [Complex128.real]
    simp only [List.map_cons, List.map_nil, this]
  have h3 : DemodulateBPSK testEnv [(⟨3, 0⟩ : Complex128 ℚ)] = .ok [3] := by
    rw [DemodulateBPSK_eq_map]
    have : intOfFloat64 testEnv.IntOutOfRange
        (roundFloat64 (real (⟨3, 0⟩ : Complex128 ℚ) + 1 / 2)) = 3 := by
      have e : real (⟨3, 0⟩ : Complex128 ℚ) + 1 / 2 = 7 / 2 := by
        norm_num [Complex128.real]
      rw [e, roundFloat64_seven_halves]
      have ht : truncToInt (7 / 2 : ℚ) = 3 := by
        have hpos : (0 : ℚ) ≤ 7 / 2 := by norm_num
        simp only [truncToInt, hpos, if_true]
        rw [Int.floor_eq_iff]
        constructor <;> norm_num
      rw [intOfFloat64_of_fits _ _ (by rw [ht]; norm_num) (by rw [ht]; norm_num), ht]
    simp only [List.map_cons, List.map_nil, this]
  refine ⟨?_, h0, h3⟩
  intro h
  obtain ⟨out, hout, _, hval⟩ := h [⟨0, 0⟩]
  rw [h0] at hout
  have hout1 : out = [0] := (Except.ok.inj hout).symm
  have := hval 0 ⟨0, 0⟩ (by simp)
  rw [hout1] at this
  norm_num [Complex128.real] at this

/-- C3, as amended. For every sequence of complex samples, `DemodulateBPSK` returns
a sequence of the same length whose `i`-th element is `int(real(s[i]) + 0.5)`, a
function of `s[i]` alone: the `float64` sum with its fraction discarded whenever
that fits in 64 bits.  It is 1 when `0.5 - 2^-54 ≤ real(s[i]) < 1.5 - 2^-53` and 0
when `-1.5 + 2^-54 < real(s[i]) < 0.5 - 2^-54`; for every other real part whose
converted sum fits in 64 bits it is neither: at least 2 from `1.5 - 2^-53` on, at
most -1 up to `-1.5 + 2^-54`. -/
theorem DemodulateBPSK_truncates [FloorRing K] (E : Env σ K) (s : List (Complex128 K)) :
    ∃ out : List Int, DemodulateBPSK E s = .ok out ∧ out.length = s.length ∧
      ∀ (i : Nat) (x : Complex128 _), s[i]? = some x →
        out[i]? = some (intOfFloat64 E.IntOutOfRange (roundFloat64 (real x + 1 / 2))) ∧
        (-(2 ^ 63) ≤ truncToInt (roundFloat64 (real x + 1 / 2)) →
          truncToInt (roundFloat64 (real x + 1 / 2)) < 2 ^ 63 →
          out[i]? = some (truncToInt (roundFloat64 (real x + 1 / 2)))) ∧
        (1 / 2 - 1 / 2 ^ 54 ≤ real x → real x < 3 / 2 - 1 / 2 ^ 53 → out[i]? = some 1) ∧
        (-(3 / 2) + 1 / 2 ^ 54 < real x → real x < 1 / 2 - 1 / 2 ^ 54 → out[i]? = some 0) ∧
        (3 / 2 - 1 / 2 ^ 53 ≤ real x →
          truncToInt (roundFloat64 (real x + 1 / 2)) < 2 ^ 63 →
          ∃ n : Int, out[i]? = some n ∧ 2 ≤ n) ∧
        (real x ≤ -(3 / 2) + 1 / 2 ^ 54 →
          -(2 ^ 63) ≤ truncToInt (roundFloat64 (real x + 1 / 2)) →
          ∃ n : Int, out[i]? = some n ∧ n ≤ -1) := by
  refine ⟨_, DemodulateBPSK_eq_map E s, by simp, ?_⟩
  intro i x hx
  have hi : (s.map fun s =>
      intOfFloat64 E.IntOutOfRange (roundFloat64 (real s + 1 / 2)))[i]? =
      some (intOfFloat64 E.IntOutOfRange (roundFloat64 (real x + 1 / 2))) := by
    simp only [List.getElem?_map, hx, Option.map_some']
  refine ⟨hi, ?_, ?_, ?_, ?_, ?_⟩
  · intro h1 h2
    rw [hi, intOfFloat64_of_fits _ _ h1 h2]
  · intro h1 h2
    rw [hi, decode_one _ _ h1 h2]
  · intro h1 h2
    rw [hi, decode_zero _ _ h1 h2]
  · intro h1 h2
    have hge := truncToInt_ge_two _ (roundFloat64_ge_two (real x + 1 / 2) (by linarith))
    refine ⟨_, hi, ?_⟩
    rw [intOfFloat64_of_fits _ _ (by omega) h2]
    exact hge
  · intro h1 h2
    have hle := truncToInt_le_neg_one _
      (roundFloat64_le_neg_one (real x + 1 / 2) (by linarith))
    refine ⟨_, hi, ?_⟩
    rw [intOfFloat64_of_fits _ _ h2 (by omega)]
    exact hle

/-- Witness of C3 as amended, on the samples `1+0i`, `-1+0i` and `3+0i`. -/
theorem DemodulateBPSK_truncates_witness :
    ∃ out : List Int,
      DemodulateBPSK testEnv ([⟨1, 0⟩, ⟨-1, 0⟩, ⟨3, 0⟩] : List (Complex128 ℚ)) = .ok out ∧
      out.length = ([⟨1, 0⟩, ⟨-1, 0⟩, ⟨3, 0⟩] : List (Complex128 ℚ)).length ∧
      ∀ (i : Nat) (x : Complex128 _),
        ([⟨1, 0⟩, ⟨-1, 0⟩, ⟨3, 0⟩] : List (Complex128 ℚ))[i]? = some x →
        out[i]? = some (intOfFloat64 testEnv.IntOutOfRange (roundFloat64 (real x + 1 / 2))) ∧
        (-(2 ^ 63) ≤ truncToInt (roundFloat64 (real x + 1 / 2)) →
          truncToInt (roundFloat64 (real x + 1 / 2)) < 2 ^ 63 →
          out[i]? = some (truncToInt (roundFloat64 (real x + 1 / 2)))) ∧
        (1 / 2 - 1 / 2 ^ 54 ≤ real x → real x < 3 / 2 - 1 / 2 ^ 53 → out[i]? = some 1) ∧
        (-(3 / 2) + 1 / 2 ^ 54 < real x → real x < 1 / 2 - 1 / 2 ^ 54 → out[i]? = some 0) ∧
        (3 / 2 - 1 / 2 ^ 53 ≤ real x →
          truncToInt (roundFloat64 (real x + 1 / 2)) < 2 ^ 63 →
          ∃ n : Int, out[i]? = some n ∧ 2 ≤ n) ∧
        (real x ≤ -(3 / 2) + 1 / 2 ^ 54 →
          -(2 ^ 63) ≤ truncToInt (roundFloat64 (real x + 1 / 2)) →
          ∃ n : Int, out[i]? = some n ∧ n ≤ -1) :=
  DemodulateBPSK_truncates testEnv [⟨1, 0⟩, ⟨-1, 0⟩, ⟨3, 0⟩]

/-- C9, counterexample. The input `[2]` holds an element outside {0, 1}, yet
`ModulateBPSK` does not fail: it returns the symbol `3+0i`. -/
theorem ModulateBPSK_no_fail_fast_counterexample :
    ¬ (∀ bits : List Int, (∃ b ∈ bits, b ≠ 0 ∧ b ≠ 1) →
        ∃ e, ModulateBPSK (K := ℚ) bits = .error e) ∧
    ModulateBPSK (K := ℚ) [2] = .ok [⟨3, 0⟩] := by
  have h2 : ModulateBPSK (K := ℚ) [2] = .ok [⟨3, 0⟩] := by
    rw [ModulateBPSK_eq_map]
    have : roundToFloat64 (wrapInt64 (2 * 2 - 1)) = 3 := by decide
    simp only [List.map_cons, List.map_nil, this]
    norm_num [Complex128.complex]
  refine ⟨?_, h2⟩
  intro h
  obtain ⟨e, he⟩ := h [2] ⟨2, by simp, by decide, by decide⟩
  rw [h2] at he
  exact Except.noConfusion he

/-- C9, as amended. For every input sequence, also one with elements outside
{0, 1}, `ModulateBPSK` returns normally a sequence of the same length: it never
fails, and maps each element `b` to `float64(2*b-1)+0i` with `2*b-1` taken in `int64`
arithmetic, which is `2*b-1` itself for `-2^52 < b ≤ 2^52`. -/
theorem ModulateBPSK_total (bits : List Int) :
    ∃ out : List (Complex128 K), ModulateBPSK bits = .ok out ∧ out.length = bits.length ∧
      ∀ (i : Nat) (b : Int), bits[i]? = some b →
        out[i]? = some (complex ((roundToFloat64 (wrapInt64 (2 * b - 1)) : Int) : K) 0) ∧
        (-(2 ^ 52) < b → b ≤ 2 ^ 52 → out[i]? = some (complex (2 * (b : K) - 1) 0)) := by
  refine ⟨_, ModulateBPSK_eq_map bits, by simp, ?_⟩
  intro i b hb
  have hi : (bits.map fun bit =>
      complex ((roundToFloat64 (wrapInt64 (2 * bit - 1)) : Int) : K) 0)[i]? =
      some (complex ((roundToFloat64 (wrapInt64 (2 * b - 1)) : Int) : K) 0) := by
    simp only [List.getElem?_map, hb, Option.map_some']
  refine ⟨hi, ?_⟩
  intro h1 h2
  rw [hi]
  have hw : wrapInt64 (2 * b - 1) = 2 * b - 1 := by
    unfold wrapInt64
    omega
  have hr : roundToFloat64 (2 * b - 1) = 2 * b - 1 := by
    unfold roundToFloat64
    have : (2 * b - 1).natAbs < 2 ^ 53 := by omega
    simp only [this, if_true]
  rw [hw, hr]
  push_cast
  rfl

/-- Witness of C9 as amended, on the input `[2, 0]`. -/
theorem ModulateBPSK_total_witness :
    ∃ out : List (Complex128 ℚ), ModulateBPSK [2, 0] = .ok out ∧
      out.length = ([2, 0] : List Int).length ∧
      ∀ (i : Nat) (b : Int), ([2, 0] : List Int)[i]? = some b →
        out[i]? = some (complex ((roundToFloat64 (wrapInt64 (2 * b - 1)) : Int) : ℚ) 0) ∧
        (-(2 ^ 52) < b → b ≤ 2 ^ 52 → out[i]? = some (complex (2 * (b : ℚ) - 1) 0)) :=
  ModulateBPSK_total [2, 0]

end Claims

/-- C8. For every `n ≥ 0` and every outcome of the draws (each `rand.Intn(2)` being 0
or 1), `GenerateBits(n)` returns a sequence of length exactly `n` whose every element
is 0 or 1. -/
theorem GenerateBits_length_and_range {σ K : Type} (E : Env σ K)
    (hE : ∀ s, (E.Intn 2 s).1 = 0 ∨ (E.Intn 2 s).1 = 1) (n : Int) (hn : 0 ≤ n) (s : σ) :
    ∃ (bits : List Int) (s1 : σ), GenerateBits E n s = .ok (bits, s1) ∧
      (bits.length : Int) = n ∧ ∀ b ∈ bits, b = 0 ∨ b = 1 :=
  GenerateBits_spec E (fun b => b = 0 ∨ b = 1) (Or.inl rfl) hE n hn s

/-- Witness of C8: three bits from the counter-driven generator. -/
theorem GenerateBits_length_and_range_witness :
    (∀ s, (testEnv.Intn 2 s).1 = 0 ∨ (testEnv.Intn 2 s).1 = 1) ∧ (0 : Int) ≤ 3 ∧
    ∃ (bits : List Int) (s1 : Nat), GenerateBits testEnv 3 0 = .ok (bits, s1) ∧
      (bits.length : Int) = 3 ∧ ∀ b ∈ bits, b = 0 ∨ b = 1 :=
  have h : ∀ s, (testEnv.Intn 2 s).1 = 0 ∨ (testEnv.Intn 2 s).1 = 1 := by
    intro s
    simp only [testEnv, counterEnv]
    omega
  ⟨h, by decide, GenerateBits_length_and_range testEnv h 3 (by decide) 0⟩

section ChannelClaims

variable {σ K : Type} [LinearOrderedField K]

/-- C6. For every complex sequence and every pair of normal draws `a`, `b`,
`RayleighChannel` returns a sequence of the same length, and the single gain
`g = a + i*b` multiplies every element; hence the ratios `faded[i]/signal[i]` agree
over all indices with a nonzero input. -/
theorem RayleighChannel_flat_gain (E : Env σ K) (signal : List (Complex128 K)) (s : σ) :
    ∃ (g : Complex128 K) (faded : List (Complex128 K)) (s1 : σ),
      g = complex (E.normDraw s 0) (E.normDraw s 1) ∧
      RayleighChannel E signal s = .ok (faded, s1) ∧
      faded.length = signal.length ∧
      (∀ (i : Nat) (x : Complex128 K), signal[i]? = some x → faded[i]? = some (g * x)) ∧
      ∀ (i j : Nat) (x y fx fy : Complex128 K),
        signal[i]? = some x → signal[j]? = some y →
        faded[i]? = some fx → faded[j]? = some fy →
        x ≠ 0 → y ≠ 0 → fx / x = fy / y := by
  have hval : ∀ (i : Nat) (x : Complex128 K), signal[i]? = some x →
      (signal.map fun x => complex (E.normDraw s 0) (E.normDraw s 1) * x)[i]? =
        some (complex (E.normDraw s 0) (E.normDraw s 1) * x) := by
    intro i x hx
    simp only [List.getElem?_map, hx, Option.map_some']
  refine ⟨_, _, _, rfl, RayleighChannel_eq_map E signal s, by simp, hval, ?_⟩
  intro i j x y fx fy hx hy hfx hfy hx0 hy0
  rw [hval i x hx] at hfx
  rw [hval j y hy] at hfy
  rw [← Option.some.inj hfx, ← Option.some.inj hfy,
    mul_div_cancel_right₀ _ hx0, mul_div_cancel_right₀ _ hy0]

/-- Witness of C6 on a two-sample block. -/
theorem RayleighChannel_flat_gain_witness :
    ∃ (g : Complex128 ℚ) (faded : List (Complex128 ℚ)) (s1 : Nat),
      g = complex (testEnv.normDraw 0 0) (testEnv.normDraw 0 1) ∧
      RayleighChannel testEnv [⟨1, 0⟩, ⟨0, 2⟩] 0 = .ok (faded, s1) ∧
      faded.length = ([⟨1, 0⟩, ⟨0, 2⟩] : List (Complex128 ℚ)).length ∧
      (∀ (i : Nat) (x : Complex128 ℚ),
        ([⟨1, 0⟩, ⟨0, 2⟩] : List (Complex128 ℚ))[i]? = some x → faded[i]? = some (g * x)) ∧
      ∀ (i j : Nat) (x y fx fy : Complex128 ℚ),
        ([⟨1, 0⟩, ⟨0, 2⟩] : List (Complex128 ℚ))[i]? = some x →
        ([⟨1, 0⟩, ⟨0, 2⟩] : List (Complex128 ℚ))[j]? = some y →
        faded[i]? = some fx → faded[j]? = some fy →
        x ≠ 0 → y ≠ 0 → fx / x = fy / y :=
  RayleighChannel_flat_gain testEnv [⟨1, 0⟩, ⟨0, 2⟩] 0

/-- C10. For every `n < 0`, `GenerateBits(n)`, and hence `RunSimulation(n, snr)` for
every `snr`, fails (the run-time panic of `make` on a negative length): no bit
sequence is returned, in particular not the empty one. -/
theorem GenerateBits_rejects_negative (E : Env σ K) (n : Int) (hn : n < 0) (s : σ) :
    GenerateBits E n s = .error .makesliceLenOutOfRange ∧
    (∀ r, GenerateBits E n s ≠ .ok r) ∧
    ∀ snr, RunSimulation E n snr s = .error .makesliceLenOutOfRange ∧
      ∀ r, RunSimulation E n snr s ≠ .ok r := by
  have h1 : GenerateBits E n s = .error .makesliceLenOutOfRange := by
    simp only [GenerateBits, make_of_neg _ _ hn]
  have h2 : ∀ snr, RunSimulation E n snr s = .error .makesliceLenOutOfRange := by
    intro snr
    simp only [RunSimulation, h1]
  refine ⟨h1, ?_, ?_⟩
  · intro r hr
    rw [h1] at hr
    exact Except.noConfusion hr
  · intro snr
    refine ⟨h2 snr, ?_⟩
    intro r hr
    rw [h2 snr] at hr
    exact Except.noConfusion hr

/-- Witness of C10 at `n = -1`. -/
theorem GenerateBits_rejects_negative_witness :
    (-1 : Int) < 0 ∧
    GenerateBits testEnv (-1) 0 = .error .makesliceLenOutOfRange ∧
    (∀ r, GenerateBits testEnv (-1) 0 ≠ .ok r) ∧
    ∀ snr, RunSimulation testEnv (-1) snr 0 = .error .makesliceLenOutOfRange ∧
      ∀ r, RunSimulation testEnv (-1) snr 0 ≠ .ok r :=
  ⟨by decide, GenerateBits_rejects_negative testEnv (-1) (by decide) 0⟩

/-- C5. For every `numBits ≥ 0`, every `snr` and every outcome of the draws, one
run of `RunSimulation` succeeds, and the generated bits, the BPSK symbols, the
OFDM-modulated sequence, the faded sequence and the noisy received sequence all have
length `numBits`; both returned sequences have that length. -/
theorem RunSimulation_lengths (E : Env σ K) (numBits : Int) (hn : 0 ≤ numBits) (snr : K)
    (s : σ) :
    ∃ (bits : List Int) (symbols ofdm faded noisy : List (Complex128 K)) (s1 s2 s3 : σ),
      GenerateBits E numBits s = .ok (bits, s1) ∧
      ModulateBPSK bits = .ok symbols ∧
      NewLTEChannel.OFDMModulation E symbols = ofdm ∧
      RayleighChannel E ofdm s1 = .ok (faded, s2) ∧
      NewLTEChannel.AWGN E faded snr s2 = .ok (noisy, s3) ∧
      RunSimulation E numBits snr s = .ok ((bits, noisy), s3) ∧
      (bits.length : Int) = numBits ∧ (symbols.length : Int) = numBits ∧
      (ofdm.length : Int) = numBits ∧ (faded.length : Int) = numBits ∧
      (noisy.length : Int) = numBits := by
  obtain ⟨bits, s1, hgen, hlen, _⟩ :=
    GenerateBits_spec E (fun _ => True) trivial (fun _ => trivial) numBits hn s
  have hmod := ModulateBPSK_eq_map (K := K) bits
  have hray := RayleighChannel_eq_map E
    (NewLTEChannel.OFDMModulation E
      (bits.map fun bit => complex ((roundToFloat64 (wrapInt64 (2 * bit - 1)) : Int) : K) 0)) s1
  obtain ⟨noisy, hawgn, hnl, _⟩ := AWGN_spec NewLTEChannel E
    ((NewLTEChannel.OFDMModulation E
      (bits.map fun bit =>
        complex ((roundToFloat64 (wrapInt64 (2 * bit - 1)) : Int) : K) 0)).map
      fun x => complex (E.normDraw s1 0) (E.normDraw s1 1) * x) snr (E.normState s1 2)
  have hofdm : ∀ x : List (Complex128 K),
      (NewLTEChannel.OFDMModulation E x).length = x.length := by
    intro x
    simp [LTEChannel.OFDMModulation, fft.IFFT]
  refine ⟨bits, _, _, _, noisy, s1, _, _, hgen, hmod, rfl, hray, hawgn, ?_, hlen, ?_, ?_, ?_, ?_⟩
  · simp only [RunSimulation, hgen, TransmitSignal, hmod, hray, hawgn]
  · simpa using hlen
  · rw [hofdm]
    simpa using hlen
  · rw [List.length_map, hofdm]
    simpa using hlen
  · rw [hnl, List.length_map, hofdm]
    simpa using hlen

/-- Witness of C5: a run on three bits at `snr = 20`. -/
theorem RunSimulation_lengths_witness :
    (0 : Int) ≤ 3 ∧
    ∃ (bits : List Int) (symbols ofdm faded noisy : List (Complex128 ℚ)) (s1 s2 s3 : Nat),
      GenerateBits testEnv 3 0 = .ok (bits, s1) ∧
      ModulateBPSK bits = .ok symbols ∧
      NewLTEChannel.OFDMModulation testEnv symbols = ofdm ∧
      RayleighChannel testEnv ofdm s1 = .ok (faded, s2) ∧
      NewLTEChannel.AWGN testEnv faded 20 s2 = .ok (noisy, s3) ∧
      RunSimulation testEnv 3 20 0 = .ok ((bits, noisy), s3) ∧
      (bits.length : Int) = 3 ∧ (symbols.length : Int) = 3 ∧
      (ofdm.length : Int) = 3 ∧ (faded.length : Int) = 3 ∧
      (noisy.length : Int) = 3 :=
  ⟨by decide, RunSimulation_lengths testEnv 3 (by decide) 20 0⟩

end ChannelClaims

/-! ## The transform pair -/

section Transform

variable {σ K : Type} [LinearOrderedField K]

theorem Complex128.natCast_ne_zero (n : Nat) (hn : n ≠ 0) : ((n : Nat) : Complex128 K) ≠ 0 := by
  intro h
  have hre : (((n : Nat) : Complex128 K)).re = (0 : Complex128 K).re := by rw [h]
  have hre2 : ((n : Nat) : K) = 0 := hre
  exact hn (Nat.cast_eq_zero.mp hre2)

/-- Orthogonality of the powers of a primitive root of unity. -/
theorem twiddle_orthogonal (w : Complex128 K) (N : Nat) (hw : IsPrimitiveRoot w N)
    (m k : Nat) (hm : m < N) (hk : k < N) :
    ∑ n in Finset.range N, w ^ (m * n) * (w⁻¹) ^ (k * n) =
      if m = k then ((N : Nat) : Complex128 K) else 0 := by
  have hN : 0 < N := by omega
  have hw0 : w ≠ 0 := hw.ne_zero (by omega)
  have hterm : ∀ n, w ^ (m * n) * (w⁻¹) ^ (k * n) = (w ^ m * (w⁻¹) ^ k) ^ n := by
    intro n
    rw [mul_pow, ← pow_mul, ← pow_mul]
  simp only [hterm]
  split_ifs with hmk
  · subst hmk
    have h1 : w ^ m * (w⁻¹) ^ m = 1 := by
      rw [← mul_pow, mul_inv_cancel₀ hw0, one_pow]
    simp only [h1, one_pow, Finset.sum_const, Finset.card_range, nsmul_eq_mul, mul_one]
  · have hne : w ^ m * (w⁻¹) ^ k ≠ 1 := by
      intro h
      apply hmk
      apply hw.pow_inj hm hk
      have h2 : w ^ m * (w⁻¹) ^ k * w ^ k = 1 * w ^ k := by rw [h]
      rw [mul_assoc, ← mul_pow, inv_mul_cancel₀ hw0, one_pow, mul_one, one_mul] at h2
      exact h2
    have hpow : (w ^ m * (w⁻¹) ^ k) ^ N = 1 := by
      rw [mul_pow, ← pow_mul, ← pow_mul, mul_comm m N, mul_comm k N, pow_mul, pow_mul,
        hw.pow_eq_one, inv_pow, hw.pow_eq_one]
      simp
    have hgeom := mul_geom_sum (w ^ m * (w⁻¹) ^ k) N
    rw [hpow, sub_self] at hgeom
    rcases mul_eq_zero.mp hgeom with h | h
    · exact absurd (sub_eq_zero.mp h) hne
    · exact h

theorem fft_IFFT_length (tw : Nat → Complex128 K) (x : List (Complex128 K)) :
    (fft.IFFT tw x).length = x.length := by
  simp [fft.IFFT]

theorem fft_FFT_length (tw : Nat → Complex128 K) (x : List (Complex128 K)) :
    (fft.FFT tw x).length = x.length := by
  simp [fft.FFT]

theorem fft_IFFT_getD (tw : Nat → Complex128 K) (x : List (Complex128 K)) (n : Nat)
    (hn : n < x.length) :
    (fft.IFFT tw x).getD n 0 =
      (∑ k in Finset.range x.length, x.getD k 0 * (tw x.length) ^ (k * n))
        / ((x.length : Nat) : Complex128 K) := by
  simp [fft.IFFT, List.getD_eq_getElem?_getD, List.getElem?_map, hn]

/-- The forward transform undoes the inverse transform, for every length. -/
theorem fft_FFT_IFFT (tw : Nat → Complex128 K) (x : List (Complex128 K))
    (htw : 0 < x.length → IsPrimitiveRoot (tw x.length) x.length) :
    fft.FFT tw (fft.IFFT tw x) = x := by
  apply List.ext_getElem
  · rw [fft_FFT_length, fft_IFFT_length]
  · intro k h1 h2
    have hN : 0 < x.length := by omega
    have hw := htw hN
    have hN0 : ((x.length : Nat) : Complex128 K) ≠ 0 :=
      Complex128.natCast_ne_zero _ (by omega)
    simp only [fft.FFT, fft_IFFT_length, List.getElem_map, List.getElem_range]
    have hinner : ∀ n ∈ Finset.range x.length,
        (fft.IFFT tw x).getD n 0 * ((tw x.length)⁻¹) ^ (k * n) =
          ∑ m in Finset.range x.length,
            x.getD m 0 / ((x.length : Nat) : Complex128 K) *
              ((tw x.length) ^ (m * n) * ((tw x.length)⁻¹) ^ (k * n)) := by
      intro n hn
      rw [fft_IFFT_getD tw x n (Finset.mem_range.mp hn), div_eq_mul_inv, Finset.sum_mul,
        Finset.sum_mul]
      apply Finset.sum_congr rfl
      intro m _
      ring
    rw [Finset.sum_congr rfl hinner, Finset.sum_comm]
    have houter : ∀ m ∈ Finset.range x.length,
        ∑ n in Finset.range x.length,
            x.getD m 0 / ((x.length : Nat) : Complex128 K) *
              ((tw x.length) ^ (m * n) * ((tw x.length)⁻¹) ^ (k * n)) =
          if m = k then x.getD m 0 else 0 := by
      intro m hm
      rw [← Finset.mul_sum, twiddle_orthogonal _ _ hw m k (Finset.mem_range.mp hm) h2]
      split_ifs with hmk
      · rw [div_mul_cancel₀ _ hN0]
      · rw [mul_zero]
    rw [Finset.sum_congr rfl houter, Finset.sum_ite_eq' (Finset.range x.length) k]
    simp [h2, List.getD_eq_getElem?_getD]

end Transform

/-! ## Claims on the transform pair -/

/-- The twiddle factor of the evaluation environment at length 2 is a primitive
square root of unity. -/
theorem testEnv_twiddle_two : IsPrimitiveRoot (testEnv.twiddle 2) 2 := by
  have hval : testEnv.twiddle 2 = -1 := by
    apply Complex128.ext
    · show ((-1 : ℚ)) = -1
      rfl
    · show ((0 : ℚ)) = -0
      norm_num
  rw [hval]
  apply IsPrimitiveRoot.mk_of_lt _ (by decide) (by norm_num)
  intro l h1 h2
  have hl : l = 1 := by omega
  subst hl
  rw [pow_one]
  intro h
  have hre : ((-1 : Complex128 ℚ)).re = (1 : Complex128 ℚ).re := by rw [h]
  have hre2 : (-1 : ℚ) = 1 := hre
  norm_num at hre2

/-- Over the real scalars the twiddle factors `cos(2π/N) + i·sin(2π/N)` are primitive
`N`-th roots of unity for every length `N > 0`, a power of two or not. -/
theorem exists_real_twiddle :
    ∃ tw : Nat → Complex128 ℝ,
      (∀ N, tw N = ⟨Real.cos (2 * Real.pi / N), Real.sin (2 * Real.pi / N)⟩) ∧
      ∀ N, 0 < N → IsPrimitiveRoot (tw N) N := by
  refine ⟨fun N => ⟨Real.cos (2 * Real.pi / N), Real.sin (2 * Real.pi / N)⟩,
    fun _ => rfl, ?_⟩
  intro N hN
  let f : Complex128 ℝ →* ℂ :=
    { toFun := fun z => ⟨z.re, z.im⟩
      map_one' := rfl
      map_mul' := fun z w => by
        apply Complex.ext
        · show z.re * w.re - z.im * w.im = _
          simp
        · show z.re * w.im + z.im * w.re = _
          simp }
  have hf : Function.Injective f := by
    intro z w h
    have h1 : z.re = w.re := congrArg Complex.re h
    have h2 : z.im = w.im := congrArg Complex.im h
    exact Complex128.ext h1 h2
  apply IsPrimitiveRoot.of_map_of_injective (f := f) _ hf
  have hexp : f ⟨Real.cos (2 * Real.pi / N), Real.sin (2 * Real.pi / N)⟩ =
      Complex.exp (2 * Real.pi * Complex.I / N) := by
    have harg : (2 * Real.pi * Complex.I / N : ℂ) =
        ((2 * Real.pi / N : ℝ) : ℂ) * Complex.I := by
      push_cast
      ring
    rw [harg, Complex.exp_mul_I, ← Complex.ofReal_cos, ← Complex.ofReal_sin]
    exact Complex.mk_eq_add_mul_I _ _
  rw [hexp]
  exact Complex.isPrimitiveRoot_exp N (by omega)

section TransformClaims

variable {σ K : Type} [LinearOrderedField K]

/-- C4. For every complex symbol sequence `x` of length `N` (a power of two or
not), with the twiddle factor of length `N` a primitive `N`-th root of unity,
`OFDMDemodulation(OFDMModulation(x))` equals `x` and has length `N`, the inverse
transform carrying the single factor `1/N`. -/
theorem OFDM_roundtrip (E : Env σ K) (c : LTEChannel) (x : List (Complex128 K))
    (htw : 0 < x.length → IsPrimitiveRoot (E.twiddle x.length) x.length) :
    OFDMDemodulation E (c.OFDMModulation E x) = x ∧
    (OFDMDemodulation E (c.OFDMModulation E x)).length = x.length := by
  have h : OFDMDemodulation E (c.OFDMModulation E x) = x := by
    simp only [OFDMDemodulation, LTEChannel.OFDMModulation]
    exact fft_FFT_IFFT E.twiddle x htw
  exact ⟨h, by rw [h]⟩

/-- Witness of C4 on a sequence of length 2 over the rationals. -/
theorem OFDM_roundtrip_witness :
    ((0 : Nat) < ([⟨1, 2⟩, ⟨3, -1⟩] : List (Complex128 ℚ)).length →
      IsPrimitiveRoot (testEnv.twiddle ([⟨1, 2⟩, ⟨3, -1⟩] : List (Complex128 ℚ)).length)
        ([⟨1, 2⟩, ⟨3, -1⟩] : List (Complex128 ℚ)).length) ∧
    OFDMDemodulation testEnv (NewLTEChannel.OFDMModulation testEnv [⟨1, 2⟩, ⟨3, -1⟩]) =
      [⟨1, 2⟩, ⟨3, -1⟩] ∧
    (OFDMDemodulation testEnv
      (NewLTEChannel.OFDMModulation testEnv [⟨1, 2⟩, ⟨3, -1⟩])).length =
      ([⟨1, 2⟩, ⟨3, -1⟩] : List (Complex128 ℚ)).length :=
  ⟨fun _ => testEnv_twiddle_two,
    OFDM_roundtrip testEnv NewLTEChannel [⟨1, 2⟩, ⟨3, -1⟩] (fun _ => testEnv_twiddle_two)⟩

/-- C2. For every bit sequence (every element 0 or 1), with unit channel gain and
zero noise, `DemodulateBPSK(OFDMDemodulation(OFDMModulation(ModulateBPSK(bits))))`
equals `bits`, the two transforms being the exact inverse and forward DFT. -/
theorem end_to_end_noiseless [FloorRing K] (E : Env σ K) (c : LTEChannel) (bits : List Int)
    (hbits : ∀ b ∈ bits, b = 0 ∨ b = 1)
    (htw : 0 < bits.length → IsPrimitiveRoot (E.twiddle bits.length) bits.length) :
    ∃ symbols : List (Complex128 K), ModulateBPSK bits = .ok symbols ∧
      DemodulateBPSK E (OFDMDemodulation E (c.OFDMModulation E symbols)) = .ok bits := by
  refine ⟨_, ModulateBPSK_eq_map bits, ?_⟩
  have hrt : OFDMDemodulation E (c.OFDMModulation E
      (bits.map fun bit =>
        complex ((roundToFloat64 (wrapInt64 (2 * bit - 1)) : Int) : K) 0)) =
      bits.map fun bit =>
        complex ((roundToFloat64 (wrapInt64 (2 * bit - 1)) : Int) : K) 0 := by
    simp only [OFDMDemodulation, LTEChannel.OFDMModulation]
    exact fft_FFT_IFFT E.twiddle _ (by simpa using htw)
  rw [hrt, DemodulateBPSK_eq_map, List.map_map]
  congr 1
  conv_rhs => rw [← List.map_id bits]
  apply List.map_congr_left
  intro b hb
  simp only [Function.comp, id, Complex128.real, Complex128.complex]
  rw [symbol_of_bit b (hbits b hb)]
  rcases hbits b hb with rfl | rfl
  · apply decode_zero <;> norm_num
  · apply decode_one <;> norm_num

/-- Witness of C2 on the bits 1, 0. -/
theorem end_to_end_noiseless_witness :
    (∀ b ∈ ([1, 0] : List Int), b = 0 ∨ b = 1) ∧
    ((0 : Nat) < ([1, 0] : List Int).length →
      IsPrimitiveRoot (testEnv.twiddle ([1, 0] : List Int).length)
        ([1, 0] : List Int).length) ∧
    ∃ symbols : List (Complex128 ℚ), ModulateBPSK [1, 0] = .ok symbols ∧
      DemodulateBPSK testEnv
          (OFDMDemodulation testEnv (NewLTEChannel.OFDMModulation testEnv symbols)) =
        .ok [1, 0] :=
  ⟨by decide, fun _ => testEnv_twiddle_two,
    end_to_end_noiseless testEnv NewLTEChannel [1, 0] (by decide)
      (fun _ => testEnv_twiddle_two)⟩

end TransformClaims

/-! ## The noise of `AWGN` -/

/-- The second moment of one noise component, for a draw with unit second moment. -/
theorem noiseSample_second_moment {Ω : Type} [MeasurableSpace Ω] (μ : MeasureTheory.Measure Ω)
    (Z : Ω → ℝ) (P : ℝ) (hZ : ∫ ω, Z ω ^ 2 ∂μ = 1) :
    ∫ ω, AWGN.noiseSample (Z ω) P ^ 2 ∂μ = P ^ 2 / 4 := by
  have h : ∀ ω, AWGN.noiseSample (Z ω) P ^ 2 = P ^ 2 / 4 * Z ω ^ 2 := by
    intro ω
    unfold AWGN.noiseSample
    ring
  simp only [h]
  rw [MeasureTheory.integral_mul_left, hZ, mul_one]

theorem noisePower_rpow {σ : Type} (E : Env σ ℝ) (hPow : ∀ x y : ℝ, E.Pow x y = x ^ y)
    (snr : ℝ) : AWGN.noisePower E snr = (10 : ℝ) ^ ((-90 - snr) / 10) := by
  unfold AWGN.noisePower
  rw [hPow]
  norm_num [noiseFloor]

/-! ### The standard normal distribution -/

theorem integral_sq_mul_exp : ∫ x : ℝ, x * (x * Real.exp (-(1 / 2) * x ^ 2)) = Real.sqrt (2 * Real.pi) := by
  have hb : (0 : ℝ) < 1 / 2 := by norm_num
  have hu : ∀ x : ℝ, HasDerivAt (fun x : ℝ => x) ((fun _ => (1 : ℝ)) x) x := fun x => hasDerivAt_id x
  have hv : ∀ x : ℝ, HasDerivAt (fun x : ℝ => -Real.exp (-(1 / 2) * x ^ 2))
      ((fun x : ℝ => x * Real.exp (-(1 / 2) * x ^ 2)) x) x := by
    intro x
    have h1 : HasDerivAt (fun x : ℝ => -(1 / 2) * x ^ 2) (-(1 / 2) * (2 * x)) x := by
      have := (hasDerivAt_pow 2 x).const_mul (-(1 / 2) : ℝ)
      simpa using this
    have h2 := (h1.exp).neg
    convert h2 using 1
    ring
  have i1 : MeasureTheory.Integrable
      ((fun x : ℝ => x) * fun x : ℝ => x * Real.exp (-(1 / 2) * x ^ 2)) := by
    have := integrable_rpow_mul_exp_neg_mul_sq hb (by norm_num : (-1 : ℝ) < 2)
    refine this.congr (Filter.Eventually.of_forall fun x => ?_)
    simp only [Pi.mul_apply]
    rw [← mul_assoc]
    congr 1
    rw [Real.rpow_two]
    ring
  have i2 : MeasureTheory.Integrable
      ((fun _ : ℝ => (1 : ℝ)) * fun x : ℝ => -Real.exp (-(1 / 2) * x ^ 2)) := by
    have := (integrable_exp_neg_mul_sq hb).neg
    refine this.congr (Filter.Eventually.of_forall fun x => ?_)
    simp
  have i3 : MeasureTheory.Integrable
      ((fun x : ℝ => x) * fun x : ℝ => -Real.exp (-(1 / 2) * x ^ 2)) := by
    have := (integrable_mul_exp_neg_mul_sq hb).neg
    refine this.congr (Filter.Eventually.of_forall fun x => ?_)
    simp
  have key := MeasureTheory.integral_mul_deriv_eq_deriv_mul_of_integrable hu hv i1 i2 i3
  rw [key]
  simp only [one_mul, MeasureTheory.integral_neg, neg_neg]
  rw [integral_gaussian]
  congr 1
  field_simp
  ring

theorem gaussianReal_second_moment :
    ∫ x, x ^ 2 ∂(ProbabilityTheory.gaussianReal 0 1) = 1 := by
  rw [ProbabilityTheory.gaussianReal_of_var_ne_zero 0 one_ne_zero]
  have hd : ProbabilityTheory.gaussianPDF 0 1 =
      fun x => (((ProbabilityTheory.gaussianPDFReal 0 1 x).toNNReal : NNReal) : ENNReal) := rfl
  rw [hd, integral_withDensity_eq_integral_smul
    (ProbabilityTheory.measurable_gaussianPDFReal 0 1).real_toNNReal]
  have hf : ∀ x : ℝ, (ProbabilityTheory.gaussianPDFReal 0 1 x).toNNReal • x ^ 2 =
      (Real.sqrt (2 * Real.pi))⁻¹ * (x * (x * Real.exp (-(1 / 2) * x ^ 2))) := by
    intro x
    rw [NNReal.smul_def, Real.coe_toNNReal _ (ProbabilityTheory.gaussianPDFReal_nonneg 0 1 x)]
    simp only [ProbabilityTheory.gaussianPDFReal, smul_eq_mul, NNReal.coe_one, mul_one, sub_zero]
    have : -x ^ 2 / 2 = -(1 / 2) * x ^ 2 := by ring
    rw [this]
    ring
  simp only [hf]
  rw [MeasureTheory.integral_mul_left, integral_sq_mul_exp]
  have : Real.sqrt (2 * Real.pi) ≠ 0 := by positivity
  field_simp

/-- The second moment of a standard-normal draw is 1. -/
theorem standardNormal_second_moment {Ω : Type} [MeasurableSpace Ω]
    (μ : MeasureTheory.Measure Ω) (Z : Ω → ℝ)
    (hZ : MeasureTheory.Measure.map Z μ = ProbabilityTheory.gaussianReal 0 1) :
    ∫ ω, Z ω ^ 2 ∂μ = 1 := by
  have hm : AEMeasurable Z μ := by
    by_contra h
    rw [MeasureTheory.Measure.map_of_not_aemeasurable h] at hZ
    have h1 : (ProbabilityTheory.gaussianReal 0 1) Set.univ = 1 := MeasureTheory.measure_univ
    rw [← hZ] at h1
    simp at h1
  rw [← gaussianReal_second_moment, ← hZ]
  exact (MeasureTheory.integral_map hm
    (by fun_prop : Continuous fun x : ℝ => x ^ 2).aestronglyMeasurable).symm

/-- C7. With `math.Pow` the real power, `AWGN` computes
`noisePower = 10^((noiseFloor - snr)/10)` with `noiseFloor = -90` and adds to sample
`k` a noise whose real and imaginary components are two separate draws (the draws
`2k` and `2k+1` of the call) each scaled by `noisePower/2`; for standard-normal
draws the total expected noise power per sample, the sum of the second moments of
the two scaled components, is `noisePower^2/2`, not `noisePower`: at `snr = -90`
the noise power is 1 and the expected total is `1/2`. -/
theorem AWGN_expected_noise_power {σ Ω : Type} [MeasurableSpace Ω] (E : Env σ ℝ)
    (hPow : ∀ x y : ℝ, E.Pow x y = x ^ y) (c : LTEChannel) (signal : List (Complex128 ℝ))
    (snr : ℝ) (s : σ) (μ : MeasureTheory.Measure Ω) (Z1 Z2 : Ω → ℝ)
    (hZ1 : MeasureTheory.Measure.map Z1 μ = ProbabilityTheory.gaussianReal 0 1)
    (hZ2 : MeasureTheory.Measure.map Z2 μ = ProbabilityTheory.gaussianReal 0 1) :
    AWGN.noisePower E snr = (10 : ℝ) ^ ((-90 - snr) / 10) ∧
    (∃ (noisy : List (Complex128 ℝ)) (s1 : σ), c.AWGN E signal snr s = .ok (noisy, s1) ∧
      noisy.length = signal.length ∧
      ∀ (k : Nat) (x : Complex128 ℝ), signal[k]? = some x →
        noisy[k]? = some (x + complex
          (E.normDraw s (2 * k) * AWGN.noisePower E snr / 2)
          (E.normDraw s (2 * k + 1) * AWGN.noisePower E snr / 2))) ∧
    ∫ ω, AWGN.noiseSample (Z1 ω) (AWGN.noisePower E snr) ^ 2 ∂μ +
      ∫ ω, AWGN.noiseSample (Z2 ω) (AWGN.noisePower E snr) ^ 2 ∂μ =
      AWGN.noisePower E snr ^ 2 / 2 ∧
    AWGN.noisePower E (-90) = 1 ∧
    ∫ ω, AWGN.noiseSample (Z1 ω) (AWGN.noisePower E (-90)) ^ 2 ∂μ +
      ∫ ω, AWGN.noiseSample (Z2 ω) (AWGN.noisePower E (-90)) ^ 2 ∂μ = 1 / 2 := by
  have h1 := standardNormal_second_moment μ Z1 hZ1
  have h2 := standardNormal_second_moment μ Z2 hZ2
  have hP : AWGN.noisePower E (-90) = 1 := by
    rw [noisePower_rpow E hPow]
    norm_num
  refine ⟨noisePower_rpow E hPow snr, ?_, ?_, hP, ?_⟩
  · obtain ⟨noisy, hrun, hl, hval⟩ := AWGN_spec c E signal snr s
    exact ⟨noisy, _, hrun, hl, hval⟩
  · rw [noiseSample_second_moment μ Z1 _ h1, noiseSample_second_moment μ Z2 _ h2]
    ring
  · rw [noiseSample_second_moment μ Z1 _ h1, noiseSample_second_moment μ Z2 _ h2, hP]
    norm_num

/-- Witness of C7: one sample at `snr = -90`, the two draws being the coordinates of
a pair of independent standard normals. -/
theorem AWGN_expected_noise_power_witness :
    (∀ x y : ℝ, (counterEnv fun x y : ℝ => x ^ y).Pow x y = x ^ y) ∧
    MeasureTheory.Measure.map Prod.fst
        ((ProbabilityTheory.gaussianReal 0 1).prod (ProbabilityTheory.gaussianReal 0 1)) =
      ProbabilityTheory.gaussianReal 0 1 ∧
    MeasureTheory.Measure.map Prod.snd
        ((ProbabilityTheory.gaussianReal 0 1).prod (ProbabilityTheory.gaussianReal 0 1)) =
      ProbabilityTheory.gaussianReal 0 1 ∧
    (∃ (noisy : List (Complex128 ℝ)) (s1 : Nat),
      NewLTEChannel.AWGN (counterEnv fun x y : ℝ => x ^ y) [⟨1, 0⟩] (-90) 0 = .ok (noisy, s1) ∧
      noisy.length = ([⟨1, 0⟩] : List (Complex128 ℝ)).length ∧
      ∀ (k : Nat) (x : Complex128 ℝ), ([⟨1, 0⟩] : List (Complex128 ℝ))[k]? = some x →
        noisy[k]? = some (x + complex
          ((counterEnv fun x y : ℝ => x ^ y).normDraw 0 (2 * k) *
            AWGN.noisePower (counterEnv fun x y : ℝ => x ^ y) (-90) / 2)
          ((counterEnv fun x y : ℝ => x ^ y).normDraw 0 (2 * k + 1) *
            AWGN.noisePower (counterEnv fun x y : ℝ => x ^ y) (-90) / 2))) ∧
    AWGN.noisePower (counterEnv fun x y : ℝ => x ^ y) (-90) = 1 ∧
    ∫ ω, AWGN.noiseSample (Prod.fst ω)
        (AWGN.noisePower (counterEnv fun x y : ℝ => x ^ y) (-90)) ^ 2
        ∂((ProbabilityTheory.gaussianReal 0 1).prod (ProbabilityTheory.gaussianReal 0 1)) +
      ∫ ω, AWGN.noiseSample (Prod.snd ω)
        (AWGN.noisePower (counterEnv fun x y : ℝ => x ^ y) (-90)) ^ 2
        ∂((ProbabilityTheory.gaussianReal 0 1).prod (ProbabilityTheory.gaussianReal 0 1)) =
      1 / 2 := by
  have hf : MeasureTheory.Measure.map Prod.fst
      ((ProbabilityTheory.gaussianReal 0 1).prod (ProbabilityTheory.gaussianReal 0 1)) =
      ProbabilityTheory.gaussianReal 0 1 := by
    rw [MeasureTheory.Measure.map_fst_prod, MeasureTheory.measure_univ, one_smul]
  have hs : MeasureTheory.Measure.map Prod.snd
      ((ProbabilityTheory.gaussianReal 0 1).prod (ProbabilityTheory.gaussianReal 0 1)) =
      ProbabilityTheory.gaussianReal 0 1 := by
    rw [MeasureTheory.Measure.map_snd_prod, MeasureTheory.measure_univ, one_smul]
  have h := AWGN_expected_noise_power (counterEnv fun x y : ℝ => x ^ y) (fun _ _ => rfl)
    NewLTEChannel [⟨1, 0⟩] (-90) 0
    ((ProbabilityTheory.gaussianReal 0 1).prod (ProbabilityTheory.gaussianReal 0 1))
    Prod.fst Prod.snd hf hs
  exact ⟨fun _ _ => rfl, hf, hs, h.2.1, h.2.2.2.1, h.2.2.2.2⟩
end GoDev
